import Mathlib

/-!
Verification development for the memo-rize personal memory engine.

The Python sources (`process_queue.py`, `vault_retrieve.py`, `vault_embed.py`)
are shallowly embedded here:

* note contents and other Python `str` values are modelled as `List Char`
  (a Python `str` is a sequence of code points, exactly `List Char`);
* the notes directory is modelled as a function from file names to optional
  file contents;
* Python `dict`s (insertion ordered) are modelled as association lists with
  first-key lookup and in-place first-key update;
* float arithmetic is modelled by exact arithmetic (`ℚ` where only field
  operations occur, `ℝ` where `math.log` / `math.exp` appear — those
  definitions are necessarily noncomputable);
* the two standard-library regular expressions used for frontmatter fields
  and wikilinks are modelled by direct scanners with the same greedy,
  leftmost, non-overlapping semantics.
-/

/-- Python strings are sequences of code points; we embed them as `List Char`. -/
abbrev Str := List Char

/-- Convert a Lean string literal to the `List Char` embedding. -/
def strOf (s : String) : Str := s.toList

/-- Is `pat` a prefix of `s`? (used to model `str.startswith` and scanning). -/
def isPrefixOfL : Str → Str → Bool
  | [], _ => true
  | _ :: _, [] => false
  | a :: as, b :: bs => a == b && isPrefixOfL as bs

/-- Model of Python `pat in s` (substring containment). -/
def containsSub (pat : Str) : Str → Bool
  | [] => isPrefixOfL pat []
  | c :: rest => isPrefixOfL pat (c :: rest) || containsSub pat rest

/-- Model of Python `s.replace(pat, rep, 1)`: replace the leftmost occurrence
of `pat` (non-empty in all uses) by `rep`; unchanged if absent. -/
def replaceFirst (pat rep : Str) : Str → Str
  | [] => []
  | c :: rest =>
    if isPrefixOfL pat (c :: rest) then rep ++ (c :: rest).drop pat.length
    else c :: replaceFirst pat rep rest

/-- Model of Python `s.strip()` (strip surrounding whitespace). -/
def trimL (s : Str) : Str :=
  ((s.dropWhile Char.isWhitespace).reverse.dropWhile Char.isWhitespace).reverse

/-- Model of Python `s.lower()`; ASCII case mapping, which is what every
character surviving the slug pipeline can hit. -/
def lowerStr (s : Str) : Str := s.map Char.toLower

/- ── `sanitize_note_id` (process_queue.py 241-252) ──────────────────────── -/

/-- Model of `unicodedata.normalize('NFKD', ·)` restricted to one character,
for the characters exercised by this development: the precomposed `é`/`è`
decompose into the base letter plus a combining accent; characters without a
decomposition map to themselves.  All theorems below that quantify over every
input string are independent of the values of this table. -/
def nfkdChar (c : Char) : Str :=
  if c = 'é' then ['e', Char.ofNat 0x301]
  else if c = 'è' then ['e', Char.ofNat 0x300]
  else [c]

/-- Model of `unicodedata.combining(c) != 0`: the combining diacritical marks
block U+0300–U+036F (covers the combining marks produced by `nfkdChar`). -/
def combiningMark (c : Char) : Bool := 0x300 ≤ c.toNat && c.toNat ≤ 0x36F

/-- Characters kept by the slug regex `[a-z0-9\-]`. -/
def slugChar (c : Char) : Bool :=
  ('a' ≤ c && c ≤ 'z') || ('0' ≤ c && c ≤ '9') || c == '-'

/-- `re.sub(r'[^a-z0-9\-]', '-', ·)` on one character. -/
def dashSub (c : Char) : Char := if slugChar c then c else '-'

/-- `re.sub(r'-+', '-', ·)`: collapse each run of dashes to a single dash. -/
def collapseDashes : Str → Str
  | [] => []
  | [c] => [c]
  | c :: d :: rest =>
    if c == '-' && d == '-' then collapseDashes (d :: rest)
    else c :: collapseDashes (d :: rest)

/-- Python `s.rstrip('-')`. -/
def rstripDashes (s : Str) : Str := (s.reverse.dropWhile (· == '-')).reverse

/-- Python `s.strip('-')`. -/
def stripDashes (s : Str) : Str :=
  ((s.dropWhile (· == '-')).reverse.dropWhile (· == '-')).reverse

/-- The final `if len(note_id) > 80: note_id = note_id[:80].rstrip('-')` step. -/
def truncate80 (s3 : Str) : Str :=
  if 80 < s3.length then rstripDashes (s3.take 80) else s3

/-- `sanitize_note_id` (process_queue.py): NFKD-normalize, drop combining
marks, lowercase, replace non-slug characters by `-`, collapse dash runs,
strip surrounding dashes, and truncate to 80 characters re-stripping a
trailing dash. -/
def sanitize_note_id (s : Str) : Str :=
  truncate80 (stripDashes (collapseDashes
    ((((s.flatMap nfkdChar).filter (fun c => !combiningMark c)).map Char.toLower).map dashSub)))

/-- Adjacent-pair check: no two consecutive dashes. -/
def noDoubleDash : Str → Bool
  | [] => true
  | [_] => true
  | c :: d :: rest => !(c == '-' && d == '-') && noDoubleDash (d :: rest)

/-- A clean slug: at most 80 characters, all in `[a-z0-9-]`, no dash run,
no leading and no trailing dash. -/
def isCleanSlug (s : Str) : Bool :=
  decide (s.length ≤ 80) && s.all slugChar && noDoubleDash s &&
    !(s.head? == some '-') && !(s.getLast? == some '-')

/- ── Slug lemmas ────────────────────────────────────────────────────────── -/

theorem slugChar_dashSub (c : Char) : slugChar (dashSub c) = true := by
  unfold dashSub
  split
  · assumption
  · decide

theorem mem_collapseDashes {c : Char} {s : Str} (h : c ∈ collapseDashes s) : c ∈ s := by
  induction s using collapseDashes.induct with
  | case1 => simpa [collapseDashes] using h
  | case2 d => simpa [collapseDashes] using h
  | case3 a d rest hd ih =>
    rw [collapseDashes, if_pos hd] at h
    exact List.mem_cons_of_mem _ (ih h)
  | case4 a d rest hd ih =>
    rw [collapseDashes, if_neg hd] at h
    rcases List.mem_cons.mp h with h | h
    · exact h ▸ List.mem_cons_self _ _
    · exact List.mem_cons_of_mem _ (ih h)

theorem head?_collapseDashes (s : Str) : (collapseDashes s).head? = s.head? := by
  induction s using collapseDashes.induct with
  | case1 => rfl
  | case2 d => rfl
  | case3 a d rest hd ih =>
    rw [collapseDashes, if_pos hd, ih]
    have ha : a = '-' := by
      have := (Bool.and_eq_true _ _).mp hd
      exact eq_of_beq this.1
    have hdd : d = '-' := by
      have := (Bool.and_eq_true _ _).mp hd
      exact eq_of_beq this.2
    simp [ha, hdd]
  | case4 a d rest hd ih => rw [collapseDashes, if_neg hd]; rfl

theorem noDoubleDash_collapseDashes (s : Str) : noDoubleDash (collapseDashes s) = true := by
  induction s using collapseDashes.induct with
  | case1 => rfl
  | case2 d => rfl
  | case3 a d rest hd ih => rw [collapseDashes, if_pos hd]; exact ih
  | case4 a d rest hd ih =>
    rw [collapseDashes, if_neg hd]
    have hh := head?_collapseDashes (d :: rest)
    cases hc : collapseDashes (d :: rest) with
    | nil => rfl
    | cons e tail =>
      have he : e = d := by
        rw [hc] at hh
        exact (Option.some.injEq _ _ ▸ hh : e = d)
      rw [noDoubleDash]
      subst he
      rw [hc] at ih
      simp [hd, ih]

theorem noDoubleDash_iff_chain {s : Str} :
    noDoubleDash s = true ↔ List.Chain' (fun a b => ¬(a = '-' ∧ b = '-')) s := by
  induction s using noDoubleDash.induct with
  | case1 => simp [noDoubleDash]
  | case2 d => simp [noDoubleDash]
  | case3 a d rest ih =>
    rw [noDoubleDash, Bool.and_eq_true, ih, List.chain'_cons]
    constructor
    · rintro ⟨h1, h2⟩
      refine ⟨fun hab => ?_, h2⟩
      simp [hab.1, hab.2] at h1
    · rintro ⟨h1, h2⟩
      refine ⟨?_, h2⟩
      by_contra hb
      rw [Bool.not_eq_true'] at hb
      rw [Bool.not_eq_false] at hb
      have := (Bool.and_eq_true _ _).mp hb
      exact h1 ⟨eq_of_beq this.1, eq_of_beq this.2⟩

theorem noDoubleDash_of_infixL {s t : Str} (h : s <:+: t) (ht : noDoubleDash t = true) :
    noDoubleDash s = true :=
  noDoubleDash_iff_chain.mpr ( List.Chain'.infix (noDoubleDash_iff_chain.mp ht) h)

theorem noDoubleDash_reverse {s : Str} (h : noDoubleDash s = true) :
    noDoubleDash s.reverse = true := by
  rw [noDoubleDash_iff_chain, List.chain'_reverse]
  have := noDoubleDash_iff_chain.mp h
  exact this.imp (fun a b hab => by intro hc; exact hab ⟨hc.2, hc.1⟩)

theorem head?_dropWhile_false {p : Char → Bool} {l : Str} {a : Char}
    (h : (l.dropWhile p).head? = some a) : p a = false := by
  induction l with
  | nil => simp at h
  | cons c rest ih =>
    rw [List.dropWhile_cons] at h
    split at h
    · exact ih h
    · next hp =>
      simp at h
      rw [← h]
      exact Bool.not_eq_true _ ▸ Bool.of_not_eq_true hp

theorem head?_of_prefixL {s t : Str} (h : s <+: t) (hne : s ≠ []) : s.head? = t.head? := by
  obtain ⟨u, rfl⟩ := h
  rw [List.head?_append]
  cases s with
  | nil => exact absurd rfl hne
  | cons a rest => rfl

theorem rstripDashes_prefix (s : Str) : rstripDashes s <+: s := by
  have h1 : (s.reverse.dropWhile (· == '-')) <:+ s.reverse := List.dropWhile_suffix _
  have h2 := h1.reverse
  rwa [List.reverse_reverse] at h2

theorem getLast?_rstripDashes (s : Str) : ¬ (rstripDashes s).getLast? = some '-' := by
  unfold rstripDashes
  rw [List.getLast?_reverse]
  intro h
  have := head?_dropWhile_false h
  simp at this

theorem stripDashes_infixL (s : Str) : stripDashes s <:+: s := by
  have h1 : stripDashes s <+: s.dropWhile (· == '-') := rstripDashes_prefix _
  have h2 : s.dropWhile (· == '-') <:+ s := List.dropWhile_suffix _
  exact h1.isInfix.trans h2.isInfix

theorem getLast?_stripDashes (s : Str) : ¬ (stripDashes s).getLast? = some '-' :=
  getLast?_rstripDashes _

theorem head?_stripDashes (s : Str) : ¬ (stripDashes s).head? = some '-' := by
  intro h
  have hne : stripDashes s ≠ [] := by
    intro he
    rw [he] at h
    simp at h
  have hpre : stripDashes s <+: s.dropWhile (· == '-') := rstripDashes_prefix _
  rw [head?_of_prefixL hpre hne] at h
  have := head?_dropWhile_false h
  simp at this

theorem slugChar_toNat_le {c : Char} (h : slugChar c = true) : c.toNat ≤ 122 := by
  unfold slugChar at h
  rcases Bool.or_eq_true_iff.mp h with h | h
  · rcases Bool.or_eq_true_iff.mp h with h | h
    · have h2 := ((Bool.and_eq_true _ _).mp h).2
      have : c ≤ 'z' := of_decide_eq_true h2
      rw [Char.le_def] at this
      exact this
    · have h2 := ((Bool.and_eq_true _ _).mp h).2
      have : c ≤ '9' := of_decide_eq_true h2
      rw [Char.le_def] at this
      exact le_trans this (by decide)
  · have : c = '-' := eq_of_beq h
    subst this
    decide

theorem nfkdChar_of_slug {c : Char} (h : slugChar c = true) : nfkdChar c = [c] := by
  have h1 : c ≠ 'é' := by
    intro hc
    subst hc
    exact absurd h (by decide)
  have h2 : c ≠ 'è' := by
    intro hc
    subst hc
    exact absurd h (by decide)
  simp [nfkdChar, h1, h2]

theorem combiningMark_of_slug {c : Char} (h : slugChar c = true) : combiningMark c = false := by
  have := slugChar_toNat_le h
  unfold combiningMark
  have h0 : (0x300 ≤ c.toNat) = False := by
    simp only [eq_iff_iff, iff_false]
    omega
  simp [h0]

theorem toLower_of_slug {c : Char} (h : slugChar c = true) : c.toLower = c := by
  unfold slugChar at h
  unfold Char.toLower
  rw [if_neg]
  intro hc
  rcases Bool.or_eq_true_iff.mp h with h | h
  · rcases Bool.or_eq_true_iff.mp h with h | h
    · have h1 := ((Bool.and_eq_true _ _).mp h).1
      have : 'a' ≤ c := of_decide_eq_true h1
      rw [Char.le_def] at this
      have : (97 : Nat) ≤ c.toNat := this
      omega
    · have h2 := ((Bool.and_eq_true _ _).mp h).2
      have : c ≤ '9' := of_decide_eq_true h2
      rw [Char.le_def] at this
      have : c.toNat ≤ 57 := this
      omega
  · have : c = '-' := eq_of_beq h
    subst this
    simp at hc

theorem dashSub_of_slug {c : Char} (h : slugChar c = true) : dashSub c = c := by
  simp [dashSub, h]

theorem collapseDashes_of_noDoubleDash {s : Str} (h : noDoubleDash s = true) :
    collapseDashes s = s := by
  induction s using collapseDashes.induct with
  | case1 => rfl
  | case2 d => rfl
  | case3 a d rest hd ih =>
    rw [noDoubleDash, Bool.and_eq_true] at h
    rw [hd] at h
    simp at h
  | case4 a d rest hd ih =>
    rw [noDoubleDash, Bool.and_eq_true] at h
    rw [collapseDashes, if_neg hd, ih h.2]

theorem dropWhile_eq_self_of_head? {p : Char → Bool} {s : Str}
    (h : ¬ ∃ a, s.head? = some a ∧ p a = true) : s.dropWhile p = s := by
  cases s with
  | nil => rfl
  | cons c rest =>
    rw [List.dropWhile_cons, if_neg]
    intro hp
    exact h ⟨c, rfl, hp⟩

theorem rstripDashes_eq_self {s : Str} (h : ¬ s.getLast? = some '-') :
    rstripDashes s = s := by
  unfold rstripDashes
  rw [dropWhile_eq_self_of_head?, List.reverse_reverse]
  rintro ⟨a, ha, hp⟩
  rw [List.head?_reverse] at ha
  have : a = '-' := by simpa using hp
  subst this
  exact h ha

theorem stripDashes_eq_self {s : Str} (h1 : ¬ s.head? = some '-')
    (h2 : ¬ s.getLast? = some '-') : stripDashes s = s := by
  unfold stripDashes
  have e1 : s.dropWhile (· == '-') = s := by
    apply dropWhile_eq_self_of_head?
    rintro ⟨a, ha, hp⟩
    have : a = '-' := by simpa using hp
    subst this
    exact h1 ha
  rw [e1]
  have e2 : s.reverse.dropWhile (· == '-') = s.reverse := by
    apply dropWhile_eq_self_of_head?
    rintro ⟨a, ha, hp⟩
    rw [List.head?_reverse] at ha
    have : a = '-' := by simpa using hp
    subst this
    exact h2 ha
  rw [e2, List.reverse_reverse]

theorem isCleanSlug_intro {r : Str} (l1 : r.length ≤ 80) (l2 : ∀ c ∈ r, slugChar c = true)
    (l3 : noDoubleDash r = true) (l4 : ¬ r.head? = some '-') (l5 : ¬ r.getLast? = some '-') :
    isCleanSlug r = true := by
  unfold isCleanSlug
  rw [List.all_eq_true.mpr l2, l3]
  simp [l1, l4, l5]

theorem isCleanSlug_elim {r : Str} (h : isCleanSlug r = true) :
    r.length ≤ 80 ∧ (∀ c ∈ r, slugChar c = true) ∧ noDoubleDash r = true ∧
      ¬ r.head? = some '-' ∧ ¬ r.getLast? = some '-' := by
  unfold isCleanSlug at h
  simp only [Bool.and_eq_true, decide_eq_true_eq, List.all_eq_true, Bool.not_eq_true',
    beq_eq_false_iff_ne, ne_eq] at h
  exact ⟨h.1.1.1.1, h.1.1.1.2, h.1.1.2, h.1.2, h.2⟩

theorem finishClean {w : Str} (hw : ∀ c ∈ w, slugChar c = true) :
    isCleanSlug (truncate80 (stripDashes (collapseDashes w))) = true := by
  set s3 := stripDashes (collapseDashes w) with hs3
  have hall3 : ∀ c ∈ s3, slugChar c = true := by
    intro c hc
    have h1 : c ∈ collapseDashes w := (stripDashes_infixL _).sublist.mem hc
    exact hw c (mem_collapseDashes h1)
  have hnd3 : noDoubleDash s3 = true :=
    noDoubleDash_of_infixL (stripDashes_infixL _) (noDoubleDash_collapseDashes w)
  have hh3 : ¬ s3.head? = some '-' := head?_stripDashes _
  have hl3 : ¬ s3.getLast? = some '-' := getLast?_stripDashes _
  unfold truncate80
  split
  · next hlen =>
    set r := rstripDashes (s3.take 80) with hr
    have hpre : r <+: s3.take 80 := rstripDashes_prefix _
    have hpre2 : r <+: s3 := hpre.trans (List.take_prefix 80 s3)
    apply isCleanSlug_intro
    · calc r.length ≤ (s3.take 80).length := hpre.sublist.length_le
        _ ≤ 80 := by simp
    · intro c hc
      exact hall3 c (hpre2.sublist.mem hc)
    · exact noDoubleDash_of_infixL hpre2.isInfix hnd3
    · cases hre : r with
      | nil => simp
      | cons a tail =>
        have hne : r ≠ [] := by rw [hre]; simp
        rw [← hre]
        have htne : s3.take 80 ≠ [] := by
          have : (s3.take 80).length = 80 := by
            rw [List.length_take]
            omega
          intro hcon
          rw [hcon] at this
          simp at this
        rw [head?_of_prefixL hpre hne, head?_of_prefixL (List.take_prefix 80 s3) htne]
        exact hh3
    · exact getLast?_rstripDashes _
  · next hlen =>
    exact isCleanSlug_intro (by omega) hall3 hnd3 hh3 hl3

theorem sanitize_clean (s : Str) : isCleanSlug (sanitize_note_id s) = true := by
  unfold sanitize_note_id
  apply finishClean
  intro c hc
  rcases List.mem_map.mp hc with ⟨a, _, rfl⟩
  exact slugChar_dashSub a

theorem flatMap_eq_self {t : Str} {f : Char → Str} (h : ∀ c ∈ t, f c = [c]) :
    t.flatMap f = t := by
  induction t with
  | nil => rfl
  | cons c rest ih =>
    rw [List.flatMap_cons, h c (List.mem_cons_self _ _),
      ih (fun a ha => h a (List.mem_cons_of_mem _ ha))]
    rfl

theorem map_eq_self_of_eq {t : Str} {f : Char → Char} (h : ∀ c ∈ t, f c = c) :
    t.map f = t := by
  induction t with
  | nil => rfl
  | cons c rest ih =>
    rw [List.map_cons, h c (List.mem_cons_self _ _),
      ih (fun a ha => h a (List.mem_cons_of_mem _ ha))]

theorem sanitize_eq_self {t : Str} (h : isCleanSlug t = true) : sanitize_note_id t = t := by
  obtain ⟨hlen, hall, hnd, hh, hl⟩ := isCleanSlug_elim h
  unfold sanitize_note_id
  have e1 : t.flatMap nfkdChar = t := flatMap_eq_self (fun c hc => nfkdChar_of_slug (hall c hc))
  rw [e1]
  have e2 : t.filter (fun c => !combiningMark c) = t :=
    List.filter_eq_self.mpr (fun c hc => by rw [combiningMark_of_slug (hall c hc)]; rfl)
  rw [e2]
  have e3 : t.map Char.toLower = t := map_eq_self_of_eq (fun c hc => toLower_of_slug (hall c hc))
  rw [e3]
  have e4 : t.map dashSub = t := map_eq_self_of_eq (fun c hc => dashSub_of_slug (hall c hc))
  rw [e4]
  rw [collapseDashes_of_noDoubleDash hnd, stripDashes_eq_self hh hl]
  unfold truncate80
  rw [if_neg (by omega)]

/-- C4: `sanitize_note_id` always yields a clean slug — at most 80 characters,
only lowercase ASCII letters, digits and `-`, no two consecutive dashes, no
leading or trailing dash — and is idempotent; moreover
`sanitize_note_id "café-crème" = "cafe-creme"`, sanitizing 100 copies of `a`
yields exactly 80 copies of `a` (length 80, no trailing dash), and
`sanitize_note_id "@#$%" = ""`. -/
theorem C4_sanitize_note_id_spec :
    (∀ s : Str, isCleanSlug (sanitize_note_id s) = true ∧
        sanitize_note_id (sanitize_note_id s) = sanitize_note_id s) ∧
    sanitize_note_id (strOf "café-crème") = strOf "cafe-creme" ∧
    sanitize_note_id (List.replicate 100 'a') = List.replicate 80 'a' ∧
    sanitize_note_id (strOf "@#$%") = [] := by
  refine ⟨fun s => ⟨sanitize_clean s, sanitize_eq_self (sanitize_clean s)⟩, ?_, ?_, ?_⟩
  · decide
  · decide
  · decide

/- ── Vault store: frontmatter injection and `write_note` ────────────────── -/

/-- The notes directory: file name (e.g. `my-note.md`) to file contents.
`none` models a file that does not exist. -/
abbrev FS := Str → Option Str

/-- `_inject_frontmatter_field` (process_queue.py 655-660): no-op when
`"\n<field>:"` already occurs; otherwise replace the first `"\n---\n"` with
`"\n<field>: <value>\n---\n"`. -/
def _inject_frontmatter_field (content : Str) (field : Str) (value : Str) : Str :=
  if containsSub ('\n' :: field ++ [':']) content then content
  else replaceFirst (strOf "\n---\n") ('\n' :: field ++ ':' :: ' ' :: value ++ strOf "\n---\n")
    content

/-- `_add_superseded_by` (process_queue.py 663-673): read the note, no-op if
`superseded_by:` already occurs, otherwise inject and rewrite when changed.
A missing file raises inside the guarded `try` and leaves the store alone. -/
def _add_superseded_by (fs : FS) (note_path : Str) (successor_id : Str) : FS :=
  match fs note_path with
  | none => fs
  | some content =>
    if containsSub (strOf "superseded_by:") content then fs
    else
      let updated := _inject_frontmatter_field content (strOf "superseded_by") successor_id
      if updated = content then fs
      else fun f => if f = note_path then some updated else fs f

/-- The `.md` suffix of note files. -/
def mdExt : Str := strOf ".md"

/-- `write_note` (process_queue.py 676-708), as a transformer of the notes
directory.  `today` is the module-level `TODAY` constant.  The Python
`relation.split(":", 1)[1]` after a successful `startswith("UPDATES:")`
(resp. `"EXTENDS:"`) check is exactly `relation[8:]`, both prefixes having
length 8. -/
def write_note (fs : FS) (today : Str) (note_id : Str) (content : Str) (relation : Str) : FS :=
  if isPrefixOfL (strOf "UPDATES:") relation then
    match fs (trimL (relation.drop 8) ++ mdExt) with
    | some _ =>
      fun f => if f = trimL (relation.drop 8) ++ mdExt
        then some (_inject_frontmatter_field
          (_inject_frontmatter_field content (strOf "relation") (strOf "updates"))
          (strOf "parent_note") (trimL (relation.drop 8)))
        else _add_superseded_by fs (trimL (relation.drop 8) ++ mdExt) note_id f
    | none =>
      fun f => if f = note_id ++ mdExt
        then some (_inject_frontmatter_field content (strOf "relation") (strOf "new"))
        else fs f
  else if isPrefixOfL (strOf "EXTENDS:") relation then
    match fs (trimL (relation.drop 8) ++ mdExt) with
    | some existing =>
      fun f => if f = trimL (relation.drop 8) ++ mdExt
        then some (existing ++ strOf "\n\n---\n*Auto-extension " ++ today ++ strOf " (from: " ++
          note_id ++ strOf "):*\n\n" ++ content)
        else fs f
    | none =>
      fun f => if f = note_id ++ mdExt
        then some (_inject_frontmatter_field content (strOf "relation") (strOf "new"))
        else fs f
  else
    fun f => if f = note_id ++ mdExt
      then some (_inject_frontmatter_field content (strOf "relation") (strOf "new"))
      else fs f

/-- Number of positions at which the pattern occurs in the string — the count
a reader of the final file sees (occurrences of a frontmatter line cannot
overlap, so this is the plain occurrence count). -/
def countSub (pat : Str) : Str → ℕ
  | [] => 0
  | c :: rest => (if isPrefixOfL pat (c :: rest) then 1 else 0) + countSub pat rest

theorem isPrefixOfL_append (p t : Str) : isPrefixOfL p (p ++ t) = true := by
  induction p with
  | nil => rfl
  | cons a as ih => simp [isPrefixOfL, ih]

theorem drop_strOf_updates (t : Str) : (strOf "UPDATES:" ++ t).drop 8 = t :=
  List.drop_left (strOf "UPDATES:") t

theorem drop_strOf_extends (t : Str) : (strOf "EXTENDS:" ++ t).drop 8 = t :=
  List.drop_left (strOf "EXTENDS:") t

theorem not_updates_prefix_extends (t : Str) :
    isPrefixOfL (strOf "UPDATES:") (strOf "EXTENDS:" ++ t) = false := by
  rw [show strOf "UPDATES:" = 'U' :: strOf "PDATES:" from rfl,
    show strOf "EXTENDS:" ++ t = 'E' :: (strOf "XTENDS:" ++ t) from rfl]
  simp [isPrefixOfL]

/-- C9: when the `UPDATES:`/`EXTENDS:` target note does not exist,
`write_note` behaves exactly as the `NEW` case — it injects `relation: new`
into the content and writes the result to `<note_id>.md`, mutating no other
file. -/
theorem C9_missing_target_demotes_to_new (fs : FS) (today note_id content t : Str)
    (h : fs (trimL t ++ mdExt) = none) :
    write_note fs today note_id content (strOf "UPDATES:" ++ t) =
      write_note fs today note_id content (strOf "NEW") ∧
    write_note fs today note_id content (strOf "EXTENDS:" ++ t) =
      write_note fs today note_id content (strOf "NEW") ∧
    write_note fs today note_id content (strOf "NEW") (note_id ++ mdExt) =
      some (_inject_frontmatter_field content (strOf "relation") (strOf "new")) ∧
    (∀ f, f ≠ note_id ++ mdExt → write_note fs today note_id content (strOf "NEW") f = fs f) := by
  have hnew : write_note fs today note_id content (strOf "NEW") =
      fun f => if f = note_id ++ mdExt
        then some (_inject_frontmatter_field content (strOf "relation") (strOf "new"))
        else fs f := by
    unfold write_note
    rfl
  refine ⟨?_, ?_, ?_, ?_⟩
  · rw [hnew]
    unfold write_note
    rw [isPrefixOfL_append, drop_strOf_updates, h]
    rfl
  · rw [hnew]
    unfold write_note
    rw [not_updates_prefix_extends, isPrefixOfL_append, drop_strOf_extends, h]
    rfl
  · rw [hnew]
    simp
  · intro f hf
    rw [hnew]
    simp [hf]

/-- C9 witness: concrete instantiation on an empty vault. -/
theorem C9_missing_target_demotes_to_new_witness :
    ((fun _ => none : FS) (trimL (strOf "tgt") ++ mdExt) = none) ∧
    write_note (fun _ => none) (strOf "2026-10-12") (strOf "my-note")
        (strOf "---\ndescription: d\n---\n\nbody") (strOf "UPDATES:" ++ strOf "tgt") =
      write_note (fun _ => none) (strOf "2026-10-12") (strOf "my-note")
        (strOf "---\ndescription: d\n---\n\nbody") (strOf "NEW") :=
  ⟨rfl, (C9_missing_target_demotes_to_new (fun _ => none) (strOf "2026-10-12") (strOf "my-note")
    (strOf "---\ndescription: d\n---\n\nbody") (strOf "tgt") rfl).1⟩

/-- C1 (code evaluation at the failing input): `write_note` with
`UPDATES:old-note` on an existing target first marks the old file with
`superseded_by` but then overwrites the same file with the new content, so
the final target file carries `relation: updates` and `parent_note` — and
zero occurrences of `superseded_by:` — while no `new-note.md` is created.
The claimed `superseded_by: <note_id> exactly once` does not hold. -/
theorem C1_updates_superseded_by_is_overwritten :
    write_note
        (fun f => if f = strOf "old-note.md"
          then some (strOf "---\ndescription: old fact\n---\n\n# Old")
          else none)
        (strOf "2026-10-12") (strOf "new-note")
        (strOf "---\ndescription: new fact\n---\n\n# New")
        (strOf "UPDATES:old-note") (strOf "old-note.md") =
      some (strOf
        "---\ndescription: new fact\nrelation: updates\nparent_note: old-note\n---\n\n# New") ∧
    countSub (strOf "superseded_by:")
      ((write_note
        (fun f => if f = strOf "old-note.md"
          then some (strOf "---\ndescription: old fact\n---\n\n# Old")
          else none)
        (strOf "2026-10-12") (strOf "new-note")
        (strOf "---\ndescription: new fact\n---\n\n# New")
        (strOf "UPDATES:old-note") (strOf "old-note.md")).getD []) = 0 ∧
    write_note
        (fun f => if f = strOf "old-note.md"
          then some (strOf "---\ndescription: old fact\n---\n\n# Old")
          else none)
        (strOf "2026-10-12") (strOf "new-note")
        (strOf "---\ndescription: new fact\n---\n\n# New")
        (strOf "UPDATES:old-note") (strOf "new-note.md") = none := by
  refine ⟨by decide, by decide, by decide⟩

/- ── Graph cache (vault_embed.py `build_graph_index`,
     process_queue.py `update_graph_cache_incremental`) ───────────────────── -/

/-- A Python dict from note id to a list of note ids: insertion-ordered
association list with first-key lookup. -/
abbrev SDict := List (String × List String)

/-- First-match lookup (Python `d[k]` / `d.get(k)`). -/
def dlookup : SDict → String → Option (List String)
  | [], _ => none
  | (a, v) :: rest, k => if a = k then some v else dlookup rest k

/-- Python `d.get(k, [])`. -/
def getD (d : SDict) (k : String) : List String := (dlookup d k).getD []

/-- Python `k in d`. -/
def hasKey (d : SDict) (k : String) : Bool := (dlookup d k).isSome

/-- Python `d[k] = v`: replace in place when the key exists, append otherwise. -/
def dset : SDict → String → List String → SDict
  | [], k, v => [(k, v)]
  | (a, b) :: rest, k, v => if a = k then (a, v) :: rest else (a, b) :: dset rest k v

/-- `dict.fromkeys(...)`-style order-preserving deduplication. -/
def dedupFirstAux (seen : List String) : List String → List String
  | [] => []
  | x :: xs => if x ∈ seen then dedupFirstAux seen xs else x :: dedupFirstAux (x :: seen) xs

/-- Order-preserving deduplication keeping first occurrences. -/
def dedupFirst (l : List String) : List String := dedupFirstAux [] l

/-- The shared link filter of `build_graph_index`: strip, keep only targets
shorter than 60 characters, without a space, and among the known ids;
deduplicate preserving order.  The raw `[[...]]` targets found by the regex
are taken as input. -/
def linkFilter (raw : List String) (known_ids : List String) : List String :=
  dedupFirst ((raw.map String.trim).filter
    (fun l => decide (l.length < 60) && !(l.contains ' ') && known_ids.contains l))

/-- The outbound loop of `build_graph_index`: `outbound[n.note_id] = filtered
links`, iterating the parsed notes in order (a note is a pair of its id and
the raw link targets found in its text); `all` carries the full note list for
the `known_ids` set. -/
def buildOutboundAux (all : List (String × List String)) :
    SDict → List (String × List String) → SDict
  | ob, [] => ob
  | ob, n :: rest => buildOutboundAux all (dset ob n.1 (linkFilter n.2 (all.map Prod.fst))) rest

/-- The outbound map built by `build_graph_index`. -/
def buildOutbound (notes : List (String × List String)) : SDict :=
  buildOutboundAux notes [] notes

/-- `backlinks.setdefault(t, []).append(src)`. -/
def addBacklink (bl : SDict) (src target : String) : SDict :=
  dset bl target (getD bl target ++ [src])

/-- Inner inversion loop of `build_graph_index`: append `src` as a backlink
of each of its targets. -/
def addBacklinksAll : SDict → String → List String → SDict
  | bl, _, [] => bl
  | bl, src, t :: rest => addBacklinksAll (addBacklink bl src t) src rest

/-- Outer inversion loop of `build_graph_index`. -/
def invertAux : SDict → SDict → SDict
  | bl, [] => bl
  | bl, p :: rest => invertAux (addBacklinksAll bl p.1 p.2) rest

/-- The backlink inversion of `build_graph_index`. -/
def invertOutbound (ob : SDict) : SDict := invertAux [] ob

/-- `build_graph_index` (vault_embed.py 180-194). -/
def build_graph_index (notes : List (String × List String)) : SDict × SDict :=
  (buildOutbound notes, invertOutbound (buildOutbound notes))

/-- The affected note id of `update_graph_cache_incremental`: the relation
target for `UPDATES:`/`EXTENDS:`, the written note id otherwise (both
prefixes have length 8, so `split(":", 1)[1]` is `relation[8:]`). -/
def affectedId (note_id relation : String) : String :=
  if relation.startsWith "UPDATES:" || relation.startsWith "EXTENDS:"
  then (relation.drop 8).trim else note_id

/-- The incremental patch's link extraction: known ids are the outbound keys
plus the affected id. -/
def newLinks (ob : SDict) (actual : String) (raw_links : List String) : List String :=
  dedupFirst ((raw_links.map String.trim).filter
    (fun l => decide (l.length < 60) && !(l.contains ' ') &&
      ((ob.map Prod.fst).contains l || l == actual)))

/-- Remove `actual` from `backlinks[t]` for every old target `t` (guarded by
`t in backlinks` exactly as in the code). -/
def removeBacklinks : SDict → String → List String → SDict
  | bl, _, [] => bl
  | bl, actual, t :: rest =>
    removeBacklinks
      (if hasKey bl t then dset bl t ((getD bl t).filter (fun s => !(s == actual))) else bl)
      actual rest

/-- `backlinks.setdefault(target, []); append actual if absent`. -/
def addBacklinkIfAbsent (bl : SDict) (actual t : String) : SDict :=
  if actual ∈ getD bl t then bl else dset bl t (getD bl t ++ [actual])

/-- Add `actual` to the backlink list of every new target. -/
def addBacklinks : SDict → String → List String → SDict
  | bl, _, [] => bl
  | bl, actual, t :: rest => addBacklinks (addBacklinkIfAbsent bl actual t) actual rest

/-- `update_graph_cache_incremental` (process_queue.py 599-649) on a loaded
cache `(outbound, backlinks)`: raw wikilink targets of the written content
are taken as input (the regex scan), and the rewritten maps are returned. -/
def update_graph_cache_incremental (ob bl : SDict) (note_id : String)
    (raw_links : List String) (relation : String) : SDict × SDict :=
  (dset ob (affectedId note_id relation)
      (newLinks ob (affectedId note_id relation) raw_links),
   addBacklinks
      (removeBacklinks bl (affectedId note_id relation)
        (getD ob (affectedId note_id relation)))
      (affectedId note_id relation)
      (newLinks ob (affectedId note_id relation) raw_links))

/-- The backlink-duality invariant of the graph cache. -/
def BacklinkDual (ob bl : SDict) : Prop :=
  ∀ id t, id ∈ getD bl t ↔ t ∈ getD ob id

theorem dlookup_dset (d : SDict) (k : String) (v : List String) (q : String) :
    dlookup (dset d k v) q = if q = k then some v else dlookup d q := by
  induction d with
  | nil =>
    by_cases hq : q = k
    · subst hq; simp [dset, dlookup]
    · simp [dset, dlookup, hq, show ¬ k = q from fun h => hq h.symm]
  | cons p rest ih =>
    obtain ⟨a, b⟩ := p
    by_cases hak : a = k
    · subst hak
      by_cases hq : q = a
      · subst hq; simp [dset, dlookup]
      · simp [dset, dlookup, hq, show ¬ a = q from fun h => hq h.symm]
    · by_cases hq : a = q
      · subst hq
        simp [dset, dlookup, hak, show ¬ a = k from hak]
      · simp [dset, dlookup, hak, hq, ih]

theorem getD_dset (d : SDict) (k : String) (v : List String) (q : String) :
    getD (dset d k v) q = if q = k then v else getD d q := by
  unfold getD
  rw [dlookup_dset]
  split <;> rfl

theorem hasKey_iff_mem_keys (d : SDict) (k : String) :
    hasKey d k = true ↔ k ∈ d.map Prod.fst := by
  induction d with
  | nil => simp [hasKey, dlookup]
  | cons p rest ih =>
    obtain ⟨a, b⟩ := p
    unfold hasKey at ih ⊢
    by_cases hak : a = k
    · subst hak; simp [dlookup]
    · simp [dlookup, hak, ih, show ¬ k = a from fun h => hak h.symm]

theorem getD_of_not_hasKey {d : SDict} {k : String} (h : hasKey d k = false) :
    getD d k = [] := by
  unfold hasKey at h
  unfold getD
  cases hd : dlookup d k with
  | none => rfl
  | some v => rw [hd] at h; simp at h

theorem mem_getD_removeBacklinks (old : List String) (bl : SDict) (actual id t : String) :
    id ∈ getD (removeBacklinks bl actual old) t ↔
      id ∈ getD bl t ∧ ¬(id = actual ∧ t ∈ old) := by
  induction old generalizing bl with
  | nil => simp [removeBacklinks]
  | cons o rest ih =>
    have hstep : ∀ bl', id ∈ getD (if hasKey bl' o
        then dset bl' o ((getD bl' o).filter (fun s => !(s == actual))) else bl') t ↔
        id ∈ getD bl' t ∧ ¬(id = actual ∧ t = o) := by
      intro bl'
      by_cases hk : hasKey bl' o = true
      · rw [if_pos hk, getD_dset]
        by_cases hto : t = o
        · subst hto
          rw [if_pos rfl]
          simp only [List.mem_filter, Bool.not_eq_eq_eq_not, Bool.not_true, beq_eq_false_iff_ne,
            ne_eq]
          tauto
        · rw [if_neg hto]
          tauto
      · rw [if_neg hk]
        by_cases hto : t = o
        · subst hto
          rw [getD_of_not_hasKey (Bool.not_eq_true _ ▸ hk)]
          simp
        · tauto
    rw [removeBacklinks, ih, hstep]
    simp only [List.mem_cons]
    tauto

theorem mem_getD_addBacklinks (new : List String) (bl : SDict) (actual id t : String) :
    id ∈ getD (addBacklinks bl actual new) t ↔
      id ∈ getD bl t ∨ (id = actual ∧ t ∈ new) := by
  induction new generalizing bl with
  | nil => simp [addBacklinks]
  | cons o rest ih =>
    have hstep : ∀ bl', id ∈ getD (addBacklinkIfAbsent bl' actual o) t ↔
        id ∈ getD bl' t ∨ (id = actual ∧ t = o) := by
      intro bl'
      unfold addBacklinkIfAbsent
      by_cases hmem : actual ∈ getD bl' o
      · rw [if_pos hmem]
        constructor
        · tauto
        · rintro (h | ⟨rfl, rfl⟩)
          · exact h
          · exact hmem
      · rw [if_neg hmem, getD_dset]
        by_cases hto : t = o
        · subst hto
          rw [if_pos rfl]
          simp only [List.mem_append, List.mem_singleton]
          tauto
        · rw [if_neg hto]
          tauto
    rw [addBacklinks, ih, hstep]
    simp only [List.mem_cons]
    tauto

/-- The incremental patch preserves backlink duality, for any affected id,
old outbound list and new link list. -/
theorem patch_preserves_dual (ob bl : SDict) (actual : String) (nl : List String)
    (h : BacklinkDual ob bl) :
    BacklinkDual (dset ob actual nl)
      (addBacklinks (removeBacklinks bl actual (getD ob actual)) actual nl) := by
  intro id t
  rw [mem_getD_addBacklinks, mem_getD_removeBacklinks, getD_dset]
  by_cases hid : id = actual
  · subst hid
    rw [if_pos rfl]
    have hold := h id t
    constructor
    · rintro (⟨hmem, hneg⟩ | ⟨_, hnew⟩)
      · exact absurd ⟨rfl, hold.mp hmem⟩ hneg
      · exact hnew
    · intro hnew
      exact Or.inr ⟨rfl, hnew⟩
  · rw [if_neg hid]
    have hold := h id t
    constructor
    · rintro (⟨hmem, _⟩ | ⟨hcon, _⟩)
      · exact hold.mp hmem
      · exact absurd hcon hid
    · intro hmem
      exact Or.inl ⟨hold.mpr hmem, fun hc => hid hc.1⟩

/-- The incremental patch preserves backlink duality. -/
theorem update_preserves_dual (ob bl : SDict) (note_id : String)
    (raw_links : List String) (relation : String) (h : BacklinkDual ob bl) :
    BacklinkDual (update_graph_cache_incremental ob bl note_id raw_links relation).1
      (update_graph_cache_incremental ob bl note_id raw_links relation).2 :=
  patch_preserves_dual ob bl (affectedId note_id relation)
    (newLinks ob (affectedId note_id relation) raw_links) h

theorem mem_getD_addBacklinksAll (targets : List String) (bl : SDict) (src id t : String) :
    id ∈ getD (addBacklinksAll bl src targets) t ↔
      id ∈ getD bl t ∨ (id = src ∧ t ∈ targets) := by
  induction targets generalizing bl with
  | nil => simp [addBacklinksAll]
  | cons o rest ih =>
    have hstep : ∀ bl' : SDict, id ∈ getD (addBacklink bl' src o) t ↔
        id ∈ getD bl' t ∨ (id = src ∧ t = o) := by
      intro bl'
      unfold addBacklink
      rw [getD_dset]
      by_cases hto : t = o
      · subst hto
        rw [if_pos rfl]
        simp only [List.mem_append, List.mem_singleton]
        tauto
      · rw [if_neg hto]
        tauto
    rw [addBacklinksAll, ih, hstep]
    simp only [List.mem_cons]
    tauto

theorem mem_getD_invertAux (ob : SDict) (bl : SDict) (id t : String) :
    id ∈ getD (invertAux bl ob) t ↔
      id ∈ getD bl t ∨ ∃ v, (id, v) ∈ ob ∧ t ∈ v := by
  induction ob generalizing bl with
  | nil => simp [invertAux]
  | cons p rest ih =>
    obtain ⟨src, targets⟩ := p
    rw [invertAux, ih, mem_getD_addBacklinksAll]
    simp only [List.mem_cons, Prod.mk.injEq]
    constructor
    · rintro ((h | ⟨rfl, ht⟩) | ⟨v, hv, htv⟩)
      · exact Or.inl h
      · exact Or.inr ⟨targets, Or.inl ⟨rfl, rfl⟩, ht⟩
      · exact Or.inr ⟨v, Or.inr hv, htv⟩
    · rintro (h | ⟨v, (⟨rfl, rfl⟩ | hv), htv⟩)
      · exact Or.inl (Or.inl h)
      · exact Or.inl (Or.inr ⟨rfl, htv⟩)
      · exact Or.inr ⟨v, hv, htv⟩

theorem mem_keys_dset (d : SDict) (k : String) (v : List String) (q : String) :
    q ∈ (dset d k v).map Prod.fst ↔ q ∈ d.map Prod.fst ∨ q = k := by
  induction d with
  | nil => simp [dset]
  | cons p rest ih =>
    obtain ⟨a, b⟩ := p
    by_cases hak : a = k
    · subst hak
      simp [dset]
      tauto
    · rw [dset, if_neg hak]
      simp only [List.map_cons, List.mem_cons, ih]
      tauto

theorem nodup_keys_dset {d : SDict} (k : String) (v : List String)
    (h : (d.map Prod.fst).Nodup) : ((dset d k v).map Prod.fst).Nodup := by
  induction d with
  | nil => simp [dset]
  | cons p rest ih =>
    obtain ⟨a, b⟩ := p
    simp only [List.map_cons, List.nodup_cons] at h
    by_cases hak : a = k
    · subst hak
      rw [dset, if_pos rfl]
      simp only [List.map_cons, List.nodup_cons]
      exact h
    · rw [dset, if_neg hak]
      simp only [List.map_cons, List.nodup_cons]
      refine ⟨?_, ih h.2⟩
      rw [mem_keys_dset]
      rintro (hmem | rfl)
      · exact h.1 hmem
      · exact hak rfl

theorem nodup_keys_buildOutboundAux (all notes : List (String × List String)) (ob : SDict)
    (h : (ob.map Prod.fst).Nodup) :
    ((buildOutboundAux all ob notes).map Prod.fst).Nodup := by
  induction notes generalizing ob with
  | nil => exact h
  | cons n rest ih =>
    rw [buildOutboundAux]
    exact ih _ (nodup_keys_dset _ _ h)

theorem dlookup_eq_some_of_mem {d : SDict} {k : String} {v : List String}
    (hnd : (d.map Prod.fst).Nodup) (h : (k, v) ∈ d) : dlookup d k = some v := by
  induction d with
  | nil => simp at h
  | cons p rest ih =>
    obtain ⟨a, b⟩ := p
    simp only [List.map_cons, List.nodup_cons] at hnd
    rcases List.mem_cons.mp h with h | h
    · have hak : a = k := (Prod.ext_iff.mp h.symm).1
      have hbv : b = v := (Prod.ext_iff.mp h.symm).2
      subst hak
      subst hbv
      rw [dlookup, if_pos rfl]
    · have hka : ¬ a = k := by
        intro hak
        subst hak
        exact hnd.1 (List.mem_map.mpr ⟨(a, v), h, rfl⟩)
      rw [dlookup, if_neg hka]
      exact ih hnd.2 h

theorem mem_of_dlookup_eq_some {d : SDict} {k : String} {v : List String}
    (h : dlookup d k = some v) : (k, v) ∈ d := by
  induction d with
  | nil => simp [dlookup] at h
  | cons p rest ih =>
    obtain ⟨a, b⟩ := p
    rw [dlookup] at h
    by_cases hak : a = k
    · subst hak
      rw [if_pos rfl] at h
      exact List.mem_cons.mpr (Or.inl (by rw [(Option.some.injEq _ _).mp h]))
    · rw [if_neg hak] at h
      exact List.mem_cons.mpr (Or.inr (ih h))

theorem build_dual (notes : List (String × List String)) :
    BacklinkDual (buildOutbound notes) (invertOutbound (buildOutbound notes)) := by
  intro id t
  unfold invertOutbound
  rw [mem_getD_invertAux]
  have hnd : ((buildOutbound notes).map Prod.fst).Nodup :=
    nodup_keys_buildOutboundAux notes notes [] (by simp)
  constructor
  · rintro (h | ⟨v, hv, htv⟩)
    · simp [getD, dlookup] at h
    · rw [getD, dlookup_eq_some_of_mem hnd hv]
      exact htv
  · intro h
    cases hd : dlookup (buildOutbound notes) id with
    | none => rw [getD, hd] at h; simp at h
    | some v =>
      rw [getD, hd] at h
      exact Or.inr ⟨v, mem_of_dlookup_eq_some hd, h⟩

/-- C3: the graph cache satisfies backlink duality: after a full build by
`build_graph_index` the backlinks map is the inversion of the outbound map
(it is computed as that inversion, and membership-wise
`id ∈ backlinks[t] ↔ t ∈ outbound[id]` holds); and the incremental patch of
`update_graph_cache_incremental` preserves the duality invariant: a loaded
cache satisfying it is rewritten into a cache satisfying it. -/
theorem C3_graph_backlink_duality :
    (∀ notes : List (String × List String),
        (build_graph_index notes).2 = invertOutbound (build_graph_index notes).1 ∧
        BacklinkDual (build_graph_index notes).1 (build_graph_index notes).2) ∧
    (∀ (ob bl : SDict) (note_id : String) (raw_links : List String) (relation : String),
        BacklinkDual ob bl →
        BacklinkDual (update_graph_cache_incremental ob bl note_id raw_links relation).1
          (update_graph_cache_incremental ob bl note_id raw_links relation).2) :=
  ⟨fun notes => ⟨rfl, build_dual notes⟩,
   fun ob bl note_id raw_links relation h =>
     update_preserves_dual ob bl note_id raw_links relation h⟩

/-- C3 witness: the empty cache satisfies duality, and patching it with a
note write keeps the duality. -/
theorem C3_graph_backlink_duality_witness :
    BacklinkDual ([] : SDict) ([] : SDict) ∧
    BacklinkDual
      (update_graph_cache_incremental [] [] "note-a" ["note-a"] "NEW").1
      (update_graph_cache_incremental [] [] "note-a" ["note-a"] "NEW").2 :=
  ⟨fun id t => by simp [getD, dlookup],
   C3_graph_backlink_duality.2 [] [] "note-a" ["note-a"] "NEW"
     (fun id t => by simp [getD, dlookup])⟩

/- ── `fix_wikilinks_in_content` (process_queue.py 280-293) ──────────────── -/

/-- The greedy target group `[^\]|]+` at the head of `rest`. -/
def linkTargetOf (rest : Str) : Str :=
  rest.takeWhile (fun c => !(c == ']') && !(c == '|'))

/-- The greedy display group `[^\]]+` at the head of `rest2`. -/
def linkDisplayOf (rest2 : Str) : Str := rest2.takeWhile (fun c => !(c == ']'))

/-- After the optional `|display` group: require the closing `]]`. -/
def tryDisplay (tgt rest2 : Str) : Option (Str × Option Str × Str) :=
  if (linkDisplayOf rest2).isEmpty then none
  else
    match rest2.drop (linkDisplayOf rest2).length with
    | ']' :: ']' :: tail => some (tgt, some (linkDisplayOf rest2), tail)
    | _ => none

/-- Match the body of the wikilink regex after the opening `[[`. -/
def tryLinkCore (rest : Str) : Option (Str × Option Str × Str) :=
  if (linkTargetOf rest).isEmpty then none
  else
    match rest.drop (linkTargetOf rest).length with
    | ']' :: ']' :: tail => some (linkTargetOf rest, none, tail)
    | '|' :: rest2 => tryDisplay (linkTargetOf rest) rest2
    | _ => none

/-- Try to match the wikilink regex `\[\[([^\]|]+)(?:\|([^\]]+))?\]\]` at the
head of the string.  On success returns the target group, the optional
display group, and the text after the match; the greedy character classes
cannot backtrack past `]`/`|`, so this scanner matches the regex exactly. -/
def tryLink : Str → Option (Str × Option Str × Str)
  | '[' :: '[' :: rest => tryLinkCore rest
  | _ => none

/-- `replace_link` (the inner function of `fix_wikilinks_in_content`): keep a
valid id verbatim, rewrite a known title to its id keeping the display, and
otherwise strip to the display (or the stripped target). -/
def replace_link (title_to_id : List (Str × Str)) (valid_ids : List Str)
    (tgt : Str) (dsp : Option Str) : Str :=
  if valid_ids.contains (trimL tgt) then
    strOf "[[" ++ tgt ++ (match dsp with | some d => '|' :: d | none => []) ++ strOf "]]"
  else
    match (title_to_id.find? (fun p => p.1 == lowerStr (trimL tgt))).map Prod.snd with
    | some corrected =>
      match dsp with
      | some d => strOf "[[" ++ corrected ++ '|' :: d ++ strOf "]]"
      | none => strOf "[[" ++ corrected ++ strOf "]]"
    | none =>
      match dsp with
      | some d => d
      | none => trimL tgt

/-- The `re.sub` scan: at each position try the pattern; on a match emit the
replacement and continue after the match (replacements are not rescanned), on
a mismatch emit one character and move on.  The fuel starts at the text
length and dominates the number of scan steps, each of which consumes at
least one character. -/
def fixLinksAux (title_to_id : List (Str × Str)) (valid_ids : List Str) :
    ℕ → Str → Str
  | _, [] => []
  | 0, s => s
  | fuel + 1, c :: rest =>
    match tryLink (c :: rest) with
    | some (tgt, dsp, tail) =>
      replace_link title_to_id valid_ids tgt dsp ++ fixLinksAux title_to_id valid_ids fuel tail
    | none => c :: fixLinksAux title_to_id valid_ids fuel rest

/-- `fix_wikilinks_in_content` (process_queue.py 280-293). -/
def fix_wikilinks_in_content (content : Str) (title_to_id : List (Str × Str))
    (valid_ids : List Str) : Str :=
  fixLinksAux title_to_id valid_ids content.length content

/-- Does the text contain a wikilink match whose stripped target is neither a
valid id nor a known lowercased title? (the "dangling link" detector). -/
def hasUnresolvedLink (title_to_id : List (Str × Str)) (valid_ids : List Str) : Str → Bool
  | [] => false
  | c :: rest =>
    (match tryLink (c :: rest) with
     | some (tgt, _, _) =>
       !(valid_ids.contains (trimL tgt)) &&
         !(title_to_id.find? (fun p => p.1 == lowerStr (trimL tgt))).isSome
     | none => false) || hasUnresolvedLink title_to_id valid_ids rest

/-- A well-formed regex target: non-empty, no `]`, no `|`. -/
def goodTarget (t : Str) : Bool :=
  !t.isEmpty && t.all (fun c => !(c == ']') && !(c == '|'))

/-- A well-formed regex display: non-empty, no `]`. -/
def goodDisplay (d : Str) : Bool := !d.isEmpty && d.all (fun c => !(c == ']'))

theorem takeWhile_all_append {p : Char → Bool} {t r : Str} (h : ∀ c ∈ t, p c = true) :
    (t ++ r).takeWhile p = t ++ r.takeWhile p := by
  induction t with
  | nil => rfl
  | cons c rest ih =>
    rw [List.cons_append, List.takeWhile_cons, if_pos (h c (List.mem_cons_self _ _)),
      ih (fun a ha => h a (List.mem_cons_of_mem _ ha))]
    rfl

theorem tryLink_cons (rest : Str) : tryLink ('[' :: '[' :: rest) = tryLinkCore rest := rfl

theorem linkTargetOf_plain {t : Str} (r : Str) (ht : goodTarget t = true)
    (hr : (linkTargetOf r).isEmpty = true) : linkTargetOf (t ++ r) = t := by
  unfold goodTarget at ht
  rw [Bool.and_eq_true, List.all_eq_true] at ht
  unfold linkTargetOf at hr ⊢
  rw [takeWhile_all_append ht.2]
  cases he : r.takeWhile (fun c => !(c == ']') && !(c == '|')) with
  | nil => simp
  | cons a l => rw [he] at hr; simp at hr

theorem tryLink_plain {t : Str} (ht : goodTarget t = true) :
    tryLink ('[' :: '[' :: (t ++ strOf "]]")) = some (t, none, []) := by
  rw [tryLink_cons]
  unfold tryLinkCore
  have h1 : linkTargetOf (t ++ strOf "]]") = t := linkTargetOf_plain (strOf "]]") ht rfl
  rw [h1]
  have ht2 := ht
  unfold goodTarget at ht2
  rw [Bool.and_eq_true] at ht2
  have hne : t.isEmpty = false := by simpa using ht2.1
  rw [if_neg (by simp [hne]), List.drop_left]
  rfl

theorem tryLink_display {t d : Str} (ht : goodTarget t = true) (hd : goodDisplay d = true) :
    tryLink ('[' :: '[' :: (t ++ ('|' :: (d ++ strOf "]]")))) = some (t, some d, []) := by
  rw [tryLink_cons]
  unfold tryLinkCore
  have h1 : linkTargetOf (t ++ ('|' :: (d ++ strOf "]]"))) = t :=
    linkTargetOf_plain ('|' :: (d ++ strOf "]]")) ht rfl
  rw [h1]
  unfold goodTarget at ht
  unfold goodDisplay at hd
  rw [Bool.and_eq_true, List.all_eq_true] at ht hd
  have hne : t.isEmpty = false := by simpa using ht.1
  rw [if_neg (by simp [hne]), List.drop_left]
  have h2 : linkDisplayOf (d ++ strOf "]]") = d := by
    unfold linkDisplayOf
    rw [takeWhile_all_append hd.2,
      show (strOf "]]").takeWhile (fun c => !(c == ']')) = [] from rfl, List.append_nil]
  show tryDisplay t (d ++ strOf "]]") = some (t, some d, [])
  unfold tryDisplay
  rw [h2]
  have hdne : d.isEmpty = false := by simpa using hd.1
  rw [if_neg (by simp [hdne]), List.drop_left]
  rfl

theorem fix_single_plain (tid : List (Str × Str)) (vid : List Str) {t : Str}
    (ht : goodTarget t = true) :
    fix_wikilinks_in_content (strOf "[[" ++ (t ++ strOf "]]")) tid vid =
      replace_link tid vid t none := by
  unfold fix_wikilinks_in_content
  rw [show strOf "[[" ++ (t ++ strOf "]]") = '[' :: '[' :: (t ++ strOf "]]") from rfl]
  rw [show ('[' :: '[' :: (t ++ strOf "]]")).length = (t.length + 3) + 1 by
    simp [strOf]]
  rw [fixLinksAux, tryLink_plain ht]
  show replace_link tid vid t none ++ fixLinksAux tid vid (t.length + 3) [] = _
  rw [show fixLinksAux tid vid (t.length + 3) [] = [] from rfl, List.append_nil]

theorem fix_single_display (tid : List (Str × Str)) (vid : List Str) {t d : Str}
    (ht : goodTarget t = true) (hd : goodDisplay d = true) :
    fix_wikilinks_in_content (strOf "[[" ++ (t ++ ('|' :: (d ++ strOf "]]")))) tid vid =
      replace_link tid vid t (some d) := by
  unfold fix_wikilinks_in_content
  rw [show strOf "[[" ++ (t ++ ('|' :: (d ++ strOf "]]"))) =
    '[' :: '[' :: (t ++ ('|' :: (d ++ strOf "]]"))) from rfl]
  rw [show ('[' :: '[' :: (t ++ ('|' :: (d ++ strOf "]]")))).length =
      (t.length + d.length + 4) + 1 by
    simp [strOf]
    omega]
  rw [fixLinksAux, tryLink_display ht hd]
  show replace_link tid vid t (some d) ++ fixLinksAux tid vid (t.length + d.length + 4) []
    = _
  rw [show fixLinksAux tid vid (t.length + d.length + 4) [] = [] from rfl, List.append_nil]

/-- C8 (amended): each wikilink match is rewritten by `replace_link`
exactly as the claim's three rules say — a valid id is kept verbatim, a
title-mapped target becomes the mapped id (keeping the display), anything
else collapses to the display or the stripped target — and the spec's
three-link example evaluates as claimed.  The original claim's universal
"no unresolvable `[[X]]` remains in the output" clause is dropped: replaced
text is not rescanned, so a target or display containing `[[` can splice a
new wikilink into the output (see the counterexample). -/
theorem C8_fix_wikilinks_rules (tid : List (Str × Str)) (vid : List Str) (t d : Str)
    (ht : goodTarget t = true) (hd : goodDisplay d = true) :
    (vid.contains (trimL t) = true →
      fix_wikilinks_in_content (strOf "[[" ++ (t ++ strOf "]]")) tid vid =
          strOf "[[" ++ (t ++ strOf "]]") ∧
      fix_wikilinks_in_content (strOf "[[" ++ (t ++ ('|' :: (d ++ strOf "]]")))) tid vid =
          strOf "[[" ++ (t ++ ('|' :: (d ++ strOf "]]")))) ∧
    (∀ corrected : Str × Str, vid.contains (trimL t) = false →
      tid.find? (fun p => p.1 == lowerStr (trimL t)) = some corrected →
      fix_wikilinks_in_content (strOf "[[" ++ (t ++ strOf "]]")) tid vid =
          strOf "[[" ++ (corrected.2 ++ strOf "]]") ∧
      fix_wikilinks_in_content (strOf "[[" ++ (t ++ ('|' :: (d ++ strOf "]]")))) tid vid =
          strOf "[[" ++ (corrected.2 ++ ('|' :: (d ++ strOf "]]")))) ∧
    (vid.contains (trimL t) = false →
      tid.find? (fun p => p.1 == lowerStr (trimL t)) = none →
      fix_wikilinks_in_content (strOf "[[" ++ (t ++ strOf "]]")) tid vid = trimL t ∧
      fix_wikilinks_in_content (strOf "[[" ++ (t ++ ('|' :: (d ++ strOf "]]")))) tid vid
        = d) ∧
    fix_wikilinks_in_content
        (strOf "[[note-a]] and [[My Full Title]] and [[unknown|display]]")
        [(strOf "my full title", strOf "note-a")] [strOf "note-a", strOf "note-b"] =
      strOf "[[note-a]] and [[note-a]] and display" := by
  refine ⟨?_, ?_, ?_, by decide⟩
  · intro hc
    rw [fix_single_plain tid vid ht, fix_single_display tid vid ht hd]
    unfold replace_link
    rw [if_pos hc, if_pos hc]
    simp
  · intro corrected hc hfind
    rw [fix_single_plain tid vid ht, fix_single_display tid vid ht hd]
    unfold replace_link
    rw [if_neg (ne_true_of_eq_false hc), if_neg (ne_true_of_eq_false hc), hfind]
    simp
  · intro hc hfind
    rw [fix_single_plain tid vid ht, fix_single_display tid vid ht hd]
    unfold replace_link
    rw [if_neg (ne_true_of_eq_false hc), if_neg (ne_true_of_eq_false hc), hfind]
    simp

/-- C8 witness: the spec's unresolved link with a display collapses to the
display text. -/
theorem C8_fix_wikilinks_rules_witness :
    fix_wikilinks_in_content
        (strOf "[[" ++ (strOf "unknown" ++ ('|' :: (strOf "display" ++ strOf "]]"))))
        [(strOf "my full title", strOf "note-a")] [strOf "note-a", strOf "note-b"] =
      strOf "display" :=
  ((C8_fix_wikilinks_rules [(strOf "my full title", strOf "note-a")]
      [strOf "note-a", strOf "note-b"] (strOf "unknown") (strOf "display")
      (by decide) (by decide)).2.2.1 (by decide) (by decide)).2

/-- C8 counterexample: the claim's universal "no `[[X]]` with unresolvable
`X` remains" clause fails — on `"[[z[[v]] more]]"` with no valid ids and no
titles the match `[[z[[v]]` is replaced by its target text `z[[v`, which is
not rescanned and splices with the following text into the dangling link
`[[v more]]` in the output. -/
theorem C8_no_dangling_counterexample :
    fix_wikilinks_in_content (strOf "[[z[[v]] more]]") [] [] = strOf "z[[v more]]" ∧
    hasUnresolvedLink [] [] (fix_wikilinks_in_content (strOf "[[z[[v]] more]]") [] []) =
      true :=
  ⟨by decide, by decide⟩

/- ── Reciprocal Rank Fusion (vault_retrieve.py `rrf_merge`) ─────────────── -/

/-- A retrieval result dict.  Vector hits carry all payload fields; BM25 hits
carry no `last_retrieved`/`created` key, which `dict.get` reads as `None` —
modelled by `none`.  The score type is a parameter: `ℚ` where only field
arithmetic occurs, `ℝ` for BM25 scores. -/
structure Entry (α : Type) where
  note_id : String
  description : String
  type : String
  confidence : String
  last_retrieved : Option String
  created : Option String
  score : Option α
deriving DecidableEq

/-- An `rrf_merge` output dict: the copied metadata plus `rrf_score`. -/
structure RrfEntry (α : Type) where
  entry : Entry α
  rrf_score : ℚ
deriving DecidableEq

/-- `scores[nid] = scores.get(nid, 0) + v` on the insertion-ordered dict. -/
def addScore : List (String × ℚ) → String → ℚ → List (String × ℚ)
  | [], nid, v => [(nid, v)]
  | (a, b) :: rest, nid, v =>
    if a = nid then (a, b + v) :: rest else (a, b) :: addScore rest nid v

/-- One `for rank, item in enumerate(lst)` accumulation pass of `rrf_merge`,
starting at rank `rank`. -/
def rrfAccum {α : Type} (k : ℚ) : List (String × ℚ) → ℕ → List (Entry α) → List (String × ℚ)
  | m, _, [] => m
  | m, rank, e :: rest => rrfAccum k (addScore m e.note_id (1 / (k + rank + 1))) (rank + 1) rest

/-- The fused score dict of `rrf_merge`: the vector pass then the keyword pass. -/
def rrfScores {α : Type} (vec kw : List (Entry α)) (k : ℚ) : List (String × ℚ) :=
  rrfAccum k (rrfAccum k [] 0 vec) 0 kw

/-- The metadata dict of `rrf_merge`: each vector item overwrites
(`metadata[nid] = item`, so the last vector occurrence wins); a keyword item
is stored only when the id is not yet present (first keyword occurrence). -/
def rrfMetadata {α : Type} (vec kw : List (Entry α)) (nid : String) : Option (Entry α) :=
  match (vec.filter (fun e => e.note_id == nid)).getLast? with
  | some e => some e
  | none => kw.find? (fun e => e.note_id == nid)

/-- Stable insertion: `x` goes after every element `y` with `le y x`. -/
def insertOrdBy {α : Type} (le : α → α → Bool) (x : α) : List α → List α
  | [] => [x]
  | y :: ys => if le y x then y :: insertOrdBy le x ys else x :: y :: ys

/-- Stable sort by the total preorder `le` (`le a b` = "a may stay before
b").  Python's `sorted` is stable; a stable sort w.r.t. a total preorder is
unique, so insertion sort is a faithful model. -/
def sortByOrdAux {α : Type} (le : α → α → Bool) : List α → List α → List α
  | acc, [] => acc
  | acc, x :: xs => sortByOrdAux le (insertOrdBy le x acc) xs

/-- Stable sort of a whole list. -/
def sortByOrd {α : Type} (le : α → α → Bool) (l : List α) : List α := sortByOrdAux le [] l

/-- `sorted(scores.items(), key=score, reverse=True)` (stable ⇒ ties keep
dict insertion order). -/
def rrfRanked {α : Type} (vec kw : List (Entry α)) (k : ℚ) : List (String × ℚ) :=
  sortByOrd (fun a b => decide (b.2 ≤ a.2)) (rrfScores vec kw k)

/-- `rrf_merge` (vault_retrieve.py 274-297).  The metadata lookup
`metadata[nid]` always succeeds for a fused id; the `getD` default is never
reached. -/
def rrf_merge {α : Type} (vec kw : List (Entry α)) (k : ℚ) (top_k : ℕ) : List (RrfEntry α) :=
  ((rrfRanked vec kw k).take top_k).map
    (fun p => ⟨(rrfMetadata vec kw p.1).getD
      ⟨p.1, "", "?", "experimental", none, none, none⟩, p.2⟩)

/-- First-match score lookup with default 0. -/
def lookupScore (m : List (String × ℚ)) (nid : String) : ℚ :=
  ((m.find? (fun p => p.1 == nid)).map Prod.snd).getD 0

/-- The claim's fused-score formula for one ranked list: sum of
`1 / (k + rank + 1)` over the 0-based ranks at which the id occurs. -/
def rrfRankSumSpec {α : Type} (l : List (Entry α)) (k : ℚ) (nid : String) : ℚ :=
  ((l.enum.filter (fun p => p.2.note_id == nid)).map (fun p => 1 / (k + p.1 + 1))).sum

/-- The claim's fused score over both lists. -/
def rrfFusedSpec {α : Type} (vec kw : List (Entry α)) (k : ℚ) (nid : String) : ℚ :=
  rrfRankSumSpec vec k nid + rrfRankSumSpec kw k nid

theorem lookupScore_addScore (m : List (String × ℚ)) (nid : String) (v : ℚ) (q : String) :
    lookupScore (addScore m nid v) q = lookupScore m q + (if q = nid then v else 0) := by
  induction m with
  | nil =>
    by_cases hq : q = nid
    · subst hq
      simp [addScore, lookupScore]
    · simp [addScore, lookupScore, hq, show ¬ nid = q from fun h => hq h.symm]
  | cons p rest ih =>
    obtain ⟨a, b⟩ := p
    by_cases han : a = nid
    · subst han
      by_cases hq : q = a
      · subst hq
        simp [addScore, lookupScore]
      · simp [addScore, lookupScore, hq, show ¬ a = q from fun h => hq h.symm]
    · by_cases hq : a = q
      · subst hq
        simp [addScore, lookupScore, han, show ¬ a = nid from han]
      · simp only [addScore, if_neg han]
        unfold lookupScore at ih ⊢
        simp only [List.find?_cons, show (a == q) = false from beq_false_of_ne hq]
        exact ih

theorem lookupScore_rrfAccum {α : Type} (k : ℚ) (l : List (Entry α))
    (m : List (String × ℚ)) (r : ℕ) (q : String) :
    lookupScore (rrfAccum k m r l) q =
      lookupScore m q +
        (((l.enumFrom r).filter (fun p => p.2.note_id == q)).map
          (fun p => 1 / (k + p.1 + 1))).sum := by
  induction l generalizing m r with
  | nil => simp [rrfAccum]
  | cons e rest ih =>
    rw [rrfAccum, ih, lookupScore_addScore, List.enumFrom_cons, List.filter_cons]
    by_cases he : e.note_id = q
    · rw [if_pos (show ((r, e).2.note_id == q) = true by simpa using he),
        if_pos he.symm]
      simp only [List.map_cons, List.sum_cons]
      ring
    · rw [if_neg (show ¬ ((r, e).2.note_id == q) = true by simpa using he),
        if_neg (fun h => he h.symm)]
      ring

theorem mem_keys_addScore {m : List (String × ℚ)} {nid : String} {v : ℚ} {q : String}
    (h : q ∈ (addScore m nid v).map Prod.fst) : q ∈ m.map Prod.fst ∨ q = nid := by
  induction m with
  | nil => simpa [addScore] using h
  | cons p rest ih =>
    obtain ⟨a, b⟩ := p
    by_cases han : a = nid
    · subst han
      rw [addScore, if_pos rfl] at h
      exact Or.inl (by simpa using h)
    · rw [addScore, if_neg han] at h
      simp only [List.map_cons, List.mem_cons] at h ⊢
      rcases h with h | h
      · exact Or.inl (Or.inl h)
      · rcases ih h with h | h
        · exact Or.inl (Or.inr h)
        · exact Or.inr h

theorem nodup_keys_addScore {m : List (String × ℚ)} (nid : String) (v : ℚ)
    (h : (m.map Prod.fst).Nodup) : ((addScore m nid v).map Prod.fst).Nodup := by
  induction m with
  | nil => simp [addScore]
  | cons p rest ih =>
    obtain ⟨a, b⟩ := p
    simp only [List.map_cons, List.nodup_cons] at h
    by_cases han : a = nid
    · subst han
      rw [addScore, if_pos rfl]
      simp only [List.map_cons, List.nodup_cons]
      exact h
    · rw [addScore, if_neg han]
      simp only [List.map_cons, List.nodup_cons]
      refine ⟨fun hmem => ?_, ih h.2⟩
      rcases mem_keys_addScore hmem with hmem | rfl
      · exact h.1 hmem
      · exact han rfl

theorem mem_keys_rrfAccum {α : Type} (k : ℚ) (l : List (Entry α))
    (m : List (String × ℚ)) (r : ℕ) {q : String}
    (h : q ∈ (rrfAccum k m r l).map Prod.fst) :
    q ∈ m.map Prod.fst ∨ ∃ e ∈ l, Entry.note_id e = q := by
  induction l generalizing m r with
  | nil => exact Or.inl h
  | cons e rest ih =>
    rw [rrfAccum] at h
    rcases ih _ _ h with h | ⟨e2, he2, rfl⟩
    · rcases mem_keys_addScore h with h | rfl
      · exact Or.inl h
      · exact Or.inr ⟨e, List.mem_cons_self _ _, rfl⟩
    · exact Or.inr ⟨e2, List.mem_cons_of_mem _ he2, rfl⟩

theorem nodup_keys_rrfAccum {α : Type} (k : ℚ) (l : List (Entry α))
    (m : List (String × ℚ)) (r : ℕ) (h : (m.map Prod.fst).Nodup) :
    ((rrfAccum k m r l).map Prod.fst).Nodup := by
  induction l generalizing m r with
  | nil => exact h
  | cons e rest ih => exact ih _ _ (nodup_keys_addScore _ _ h)

theorem lookupScore_of_mem {m : List (String × ℚ)} {nid : String} {v : ℚ}
    (hnd : (m.map Prod.fst).Nodup) (h : (nid, v) ∈ m) : lookupScore m nid = v := by
  induction m with
  | nil => simp at h
  | cons p rest ih =>
    obtain ⟨a, b⟩ := p
    simp only [List.map_cons, List.nodup_cons] at hnd
    rcases List.mem_cons.mp h with h | h
    · have hak : a = nid := (Prod.ext_iff.mp h.symm).1
      have hbv : b = v := (Prod.ext_iff.mp h.symm).2
      subst hak
      subst hbv
      simp [lookupScore]
    · have hka : (a == nid) = false := by
        apply beq_false_of_ne
        intro hak
        subst hak
        exact hnd.1 (List.mem_map.mpr ⟨(a, v), h, rfl⟩)
      unfold lookupScore at ih ⊢
      rw [List.find?_cons, hka]
      exact ih hnd.2 h

theorem mem_insertOrdBy {α : Type} (le : α → α → Bool) (x : α) (l : List α) (z : α) :
    z ∈ insertOrdBy le x l ↔ z = x ∨ z ∈ l := by
  induction l with
  | nil => simp [insertOrdBy]
  | cons y ys ih =>
    unfold insertOrdBy
    split
    · simp only [List.mem_cons, ih]
      tauto
    · simp only [List.mem_cons]

theorem perm_insertOrdBy {α : Type} (le : α → α → Bool) (x : α) (l : List α) :
    (insertOrdBy le x l).Perm (x :: l) := by
  induction l with
  | nil => exact List.Perm.refl _
  | cons y ys ih =>
    unfold insertOrdBy
    split
    · exact (ih.cons y).trans (List.Perm.swap x y ys)
    · exact List.Perm.refl _

theorem perm_sortByOrdAux {α : Type} (le : α → α → Bool) (l acc : List α) :
    (sortByOrdAux le acc l).Perm (acc ++ l) := by
  induction l generalizing acc with
  | nil => simp [sortByOrdAux]
  | cons x xs ih =>
    rw [sortByOrdAux]
    refine (ih _).trans ?_
    refine (((perm_insertOrdBy le x acc).append_right xs).trans ?_)
    exact List.perm_middle.symm

theorem pairwise_insertOrdBy {α : Type} {le : α → α → Bool}
    (htot : ∀ a b, le a b = true ∨ le b a = true)
    (htr : ∀ a b c, le a b = true → le b c = true → le a c = true)
    {l : List α} (h : List.Pairwise (fun a b => le a b = true) l) (x : α) :
    List.Pairwise (fun a b => le a b = true) (insertOrdBy le x l) := by
  induction l with
  | nil => simp [insertOrdBy]
  | cons y ys ih =>
    rw [List.pairwise_cons] at h
    unfold insertOrdBy
    split
    · next hyx =>
      rw [List.pairwise_cons]
      refine ⟨?_, ih h.2⟩
      intro z hz
      rcases (mem_insertOrdBy le x ys z).mp hz with rfl | hz
      · exact hyx
      · exact h.1 z hz
    · next hyx =>
      have hxy : le x y = true := by
        rcases htot x y with hx | hy
        · exact hx
        · exact absurd hy hyx
      rw [List.pairwise_cons]
      refine ⟨?_, List.pairwise_cons.mpr h⟩
      intro z hz
      rcases List.mem_cons.mp hz with rfl | hz
      · exact hxy
      · exact htr x y z hxy (h.1 z hz)

theorem pairwise_sortByOrdAux {α : Type} {le : α → α → Bool}
    (htot : ∀ a b, le a b = true ∨ le b a = true)
    (htr : ∀ a b c, le a b = true → le b c = true → le a c = true)
    (l : List α) (acc : List α)
    (hacc : List.Pairwise (fun a b => le a b = true) acc) :
    List.Pairwise (fun a b => le a b = true) (sortByOrdAux le acc l) := by
  induction l generalizing acc with
  | nil => exact hacc
  | cons x xs ih =>
    rw [sortByOrdAux]
    exact ih _ (pairwise_insertOrdBy htot htr hacc x)

theorem pairwise_sortByOrd {α : Type} {le : α → α → Bool}
    (htot : ∀ a b, le a b = true ∨ le b a = true)
    (htr : ∀ a b c, le a b = true → le b c = true → le a c = true)
    (l : List α) : List.Pairwise (fun a b => le a b = true) (sortByOrd le l) :=
  pairwise_sortByOrdAux htot htr l [] (List.Pairwise.nil)

theorem perm_sortByOrd {α : Type} (le : α → α → Bool) (l : List α) :
    (sortByOrd le l).Perm l := perm_sortByOrdAux le l []

theorem rrfDesc_total (a b : String × ℚ) :
    decide (b.2 ≤ a.2) = true ∨ decide (a.2 ≤ b.2) = true := by
  rcases le_total b.2 a.2 with h | h
  · exact Or.inl (decide_eq_true h)
  · exact Or.inr (decide_eq_true h)

theorem rrfDesc_trans (a b c : String × ℚ) (h1 : decide (b.2 ≤ a.2) = true)
    (h2 : decide (c.2 ≤ b.2) = true) : decide (c.2 ≤ a.2) = true :=
  decide_eq_true (le_trans (of_decide_eq_true h2) (of_decide_eq_true h1))

theorem pairwise_rrfRanked {α : Type} (vec kw : List (Entry α)) (k : ℚ) :
    List.Pairwise (fun a b : String × ℚ => b.2 ≤ a.2) (rrfRanked vec kw k) := by
  have := @pairwise_sortByOrd (String × ℚ) (fun a b : String × ℚ => decide (b.2 ≤ a.2))
    (fun a b => rrfDesc_total a b) (fun a b c => rrfDesc_trans a b c)
    (rrfScores vec kw k)
  exact this.imp (fun h => of_decide_eq_true h)

theorem nodup_keys_rrfScores {α : Type} (vec kw : List (Entry α)) (k : ℚ) :
    ((rrfScores vec kw k).map Prod.fst).Nodup :=
  nodup_keys_rrfAccum k kw _ 0 (nodup_keys_rrfAccum k vec [] 0 (by simp))

theorem rrfMetadata_note_id {α : Type} (vec kw : List (Entry α)) (nid : String) :
    ((rrfMetadata vec kw nid).getD
      ⟨nid, "", "?", "experimental", none, none, none⟩).note_id = nid := by
  unfold rrfMetadata
  cases hf : (vec.filter (fun e => e.note_id == nid)).getLast? with
  | some e =>
    have hmem : e ∈ vec.filter (fun e => e.note_id == nid) :=
      List.mem_of_mem_getLast? hf
    have := List.of_mem_filter hmem
    simpa using this
  | none =>
    cases hk : kw.find? (fun e => e.note_id == nid) with
    | some e =>
      have := List.find?_some hk
      simpa using this
    | none => rfl

theorem lookupScore_rrfScores {α : Type} (vec kw : List (Entry α)) (k : ℚ) (nid : String) :
    lookupScore (rrfScores vec kw k) nid = rrfFusedSpec vec kw k nid := by
  unfold rrfScores rrfFusedSpec rrfRankSumSpec
  rw [lookupScore_rrfAccum, lookupScore_rrfAccum]
  simp only [List.enum]
  rw [show lookupScore [] nid = 0 from rfl]
  ring

theorem rrf_score_correct {α : Type} (vec kw : List (Entry α)) (k : ℚ) (tk : ℕ) :
    List.Forall (fun e => e.rrf_score = rrfFusedSpec vec kw k e.entry.note_id)
      (rrf_merge vec kw k tk) := by
  rw [List.forall_iff_forall_mem]
  intro e he
  unfold rrf_merge at he
  rcases List.mem_map.mp he with ⟨p, hp, rfl⟩
  have hp2 : p ∈ rrfRanked vec kw k := List.mem_of_mem_take hp
  have hp3 : p ∈ rrfScores vec kw k :=
    (perm_sortByOrd (fun a b : String × ℚ => decide (b.2 ≤ a.2)) _).mem_iff.mp hp2
  have hs : lookupScore (rrfScores vec kw k) p.1 = p.2 :=
    lookupScore_of_mem (nodup_keys_rrfScores vec kw k) hp3
  show p.2 = rrfFusedSpec vec kw k _
  rw [rrfMetadata_note_id, ← lookupScore_rrfScores, hs]

theorem rrf_sorted {α : Type} (vec kw : List (Entry α)) (k : ℚ) (tk : ℕ) :
    List.Pairwise (fun a b : RrfEntry α => b.rrf_score ≤ a.rrf_score)
      (rrf_merge vec kw k tk) := by
  unfold rrf_merge
  rw [List.pairwise_map]
  exact ((pairwise_rrfRanked vec kw k).sublist (List.take_sublist tk _)).imp (fun h => h)

theorem rrf_top (α : Type) (vec kw : List (Entry α)) (k : ℚ) (tk : ℕ) :
    List.Forall (fun dropped : String × ℚ =>
      List.Forall (fun kept : String × ℚ => dropped.2 ≤ kept.2)
        ((rrfRanked vec kw k).take tk))
      ((rrfRanked vec kw k).drop tk) := by
  have hp := pairwise_rrfRanked vec kw k
  rw [← List.take_append_drop tk (rrfRanked vec kw k), List.pairwise_append] at hp
  rw [List.forall_iff_forall_mem]
  intro dropped hdropped
  rw [List.forall_iff_forall_mem]
  intro kept hkept
  exact hp.2.2 kept hkept dropped hdropped

/-- A ℚ-scored result entry, as used in the spec's RRF seed test. -/
def entryQ (nid : String) (sc : ℚ) : Entry ℚ :=
  ⟨nid, "", "concept", "experimental", none, none, some sc⟩

/-- C5: `rrf_merge` assigns each note id the fused score
`Σ 1/(k + rank + 1)` over the 0-based ranks at which the id occurs in the
two input lists, and returns the top `top_k` entries in descending
fused-score order (every dropped fused pair scores no higher than every kept
one); with `RRF_K = 60`, vector `[a, b]` and keyword `[b, c]` the returned
order is `[b, a, c]`. -/
theorem C5_rrf_merge_spec :
    (∀ (α : Type) (vec kw : List (Entry α)) (k : ℚ) (nid : String),
        lookupScore (rrfScores vec kw k) nid = rrfFusedSpec vec kw k nid) ∧
    (∀ (α : Type) (vec kw : List (Entry α)) (k : ℚ) (tk : ℕ),
        List.Forall (fun e => e.rrf_score = rrfFusedSpec vec kw k e.entry.note_id)
          (rrf_merge vec kw k tk)) ∧
    (∀ (α : Type) (vec kw : List (Entry α)) (k : ℚ) (tk : ℕ),
        List.Pairwise (fun a b : RrfEntry α => b.rrf_score ≤ a.rrf_score)
          (rrf_merge vec kw k tk)) ∧
    (∀ (α : Type) (vec kw : List (Entry α)) (k : ℚ) (tk : ℕ),
        List.Forall (fun dropped : String × ℚ =>
          List.Forall (fun kept : String × ℚ => dropped.2 ≤ kept.2)
            ((rrfRanked vec kw k).take tk))
          ((rrfRanked vec kw k).drop tk)) ∧
    (rrf_merge [entryQ "a" (9/10), entryQ "b" (8/10)] [entryQ "b" 5, entryQ "c" 3]
        60 3).map (fun e => e.entry.note_id) = ["b", "a", "c"] := by
  refine ⟨fun α vec kw k nid => lookupScore_rrfScores vec kw k nid,
    fun α vec kw k tk => rrf_score_correct vec kw k tk,
    fun α vec kw k tk => rrf_sorted vec kw k tk,
    fun α vec kw k tk => rrf_top α vec kw k tk, ?_⟩
  norm_num [rrf_merge, rrfRanked, rrfScores, rrfAccum, addScore, sortByOrd, sortByOrdAux,
    insertOrdBy, rrfMetadata, entryQ, Option.getD, decide_eq_true_eq]
  simp [List.find?]

/- ### Temporal decay (vault_retrieve.py 303-320)

Dates are embedded as day numbers (`ℤ`); `days_since = today - ref` is the
`(date.today() - ref).days` subtraction.  A `float` value is embedded as a
real number; `DECAY_HALF_LIFE_DAYS` and `DECAY_FLOOR` are rational
parameters. -/

/-- The decay value as a function of `days_since`: `1.0` when
`days_since <= 0`, otherwise `max(DECAY_FLOOR, exp(-days * ln 2 / half_life))`. -/
noncomputable def decayOfDays (halfLife floorQ : ℚ) (days : ℤ) : ℝ :=
  if days ≤ 0 then 1
  else max (floorQ : ℝ) (Real.exp (-(days : ℝ) * Real.log 2 / (halfLife : ℝ)))

/-- `compute_decay` (vault_retrieve.py 303-320).  `ref_date =
last_retrieved or created or TODAY` is the first present option, defaulting
to today. -/
noncomputable def compute_decay (enabled : Bool) (halfLife floorQ : ℚ) (today : ℤ)
    (last_retrieved created : Option ℤ) : ℝ :=
  if enabled = false then 1
  else decayOfDays halfLife floorQ
    (today - ((last_retrieved.orElse (fun _ => created)).getD today))

theorem decay_exp_le_one (halfLife : ℚ) (hh : 0 < halfLife) (days : ℤ) (hd : 0 < days) :
    Real.exp (-(days : ℝ) * Real.log 2 / (halfLife : ℝ)) ≤ 1 := by
  rw [Real.exp_le_one_iff]
  have h2 : (0 : ℝ) < Real.log 2 := Real.log_pos (by norm_num)
  have hdr : (0 : ℝ) < (days : ℝ) := by exact_mod_cast hd
  have hhr : (0 : ℝ) < (halfLife : ℝ) := by exact_mod_cast hh
  have hnn : (0:ℝ) ≤ (days : ℝ) * Real.log 2 / (halfLife : ℝ) := by positivity
  have hle : -((days : ℝ) * Real.log 2 / (halfLife : ℝ)) ≤ 0 := by linarith
  calc -(days : ℝ) * Real.log 2 / (halfLife : ℝ)
      = -((days : ℝ) * Real.log 2 / (halfLife : ℝ)) := by ring
    _ ≤ 0 := hle

theorem decayOfDays_mem (halfLife floorQ : ℚ) (hh : 0 < halfLife)
    (hf1 : floorQ ≤ 1) (days : ℤ) :
    (floorQ : ℝ) ≤ decayOfDays halfLife floorQ days ∧ decayOfDays halfLife floorQ days ≤ 1 := by
  unfold decayOfDays
  split
  · exact ⟨by exact_mod_cast hf1, le_refl 1⟩
  · refine ⟨le_max_left _ _, max_le (by exact_mod_cast hf1) ?_⟩
    exact decay_exp_le_one halfLife hh days (by omega)

theorem decayOfDays_anti (halfLife floorQ : ℚ) (hh : 0 < halfLife)
    (hf1 : floorQ ≤ 1) (d1 d2 : ℤ) (hd : d1 ≤ d2) :
    decayOfDays halfLife floorQ d2 ≤ decayOfDays halfLife floorQ d1 := by
  unfold decayOfDays
  by_cases h2 : d2 ≤ 0
  · rw [if_pos h2, if_pos (le_trans hd h2)]
  · rw [if_neg h2]
    by_cases h1 : d1 ≤ 0
    · rw [if_pos h1]
      exact max_le (by exact_mod_cast hf1) (decay_exp_le_one halfLife hh d2 (by omega))
    · rw [if_neg h1]
      refine max_le_max (le_refl _) (Real.exp_le_exp.mpr ?_)
      have hhr : (0 : ℝ) < (halfLife : ℝ) := by exact_mod_cast hh
      have hL : (0 : ℝ) ≤ Real.log 2 := le_of_lt (Real.log_pos (by norm_num))
      have hdr : (d1 : ℝ) ≤ (d2 : ℝ) := by exact_mod_cast hd
      exact (div_le_div_iff_of_pos_right hhr).mpr
        (mul_le_mul_of_nonneg_right (neg_le_neg hdr) hL)

theorem decayOfDays_ex0 : decayOfDays 90 (3/10) 0 = 1 := by
  norm_num [decayOfDays]

theorem decayOfDays_ex90 : decayOfDays 90 (3/10) 90 = 1/2 := by
  unfold decayOfDays
  rw [if_neg (by omega)]
  push_cast
  have h : (-(90:ℝ) * Real.log 2 / 90) = -Real.log 2 := by ring
  rw [h, Real.exp_neg, Real.exp_log (by norm_num : (0:ℝ) < 2)]
  rw [max_eq_right (by norm_num : ((3:ℝ)/10) ≤ (2:ℝ)⁻¹)]
  norm_num

theorem decayOfDays_ex3650 : decayOfDays 90 (3/10) 3650 = 3/10 := by
  unfold decayOfDays
  rw [if_neg (by omega)]
  push_cast
  have hL : (0 : ℝ) < Real.log 2 := Real.log_pos (by norm_num)
  have h4 : Real.exp (-(2:ℝ) * Real.log 2) = 1/4 := by
    have h2 : (-(2:ℝ) * Real.log 2) = -(Real.log 2 + Real.log 2) := by ring
    rw [h2, Real.exp_neg, Real.exp_add, Real.exp_log (by norm_num : (0:ℝ) < 2)]
    norm_num
  have hmono : Real.exp (-(3650:ℝ) * Real.log 2 / 90) ≤ Real.exp (-(2:ℝ) * Real.log 2) := by
    apply Real.exp_le_exp.mpr
    nlinarith [hL]
  rw [max_eq_left (by rw [h4] at hmono; linarith)]

theorem compute_decay_range (halfLife floorQ : ℚ) (hh : 0 < halfLife)
    (hf1 : floorQ ≤ 1) (today : ℤ) (lr cr : Option ℤ) :
    (floorQ : ℝ) ≤ compute_decay true halfLife floorQ today lr cr ∧
      compute_decay true halfLife floorQ today lr cr ≤ 1 := by
  unfold compute_decay
  rw [if_neg (by simp)]
  exact decayOfDays_mem halfLife floorQ hh hf1 _

theorem compute_decay_none_none (hl fl : ℚ) (today : ℤ) :
    compute_decay true hl fl today none none = 1 := by
  unfold compute_decay decayOfDays
  simp

/-- C6: with decay enabled, half-life `> 0` and floor in `(0, 1]`,
`compute_decay` returns a value in `[floor, 1]` for every reference-date
combination; the decay value is monotonically non-increasing in
`days_since`; and with half-life 90 and floor 3/10 it equals 1 at
`days_since = 0`, 1/2 at 90, and 3/10 at 3650. -/
theorem C6_compute_decay_bounds (halfLife floorQ : ℚ) (hh : 0 < halfLife)
    (hf0 : 0 < floorQ) (hf1 : floorQ ≤ 1) :
    (∀ (today : ℤ) (lr cr : Option ℤ),
        (floorQ : ℝ) ≤ compute_decay true halfLife floorQ today lr cr ∧
          compute_decay true halfLife floorQ today lr cr ≤ 1) ∧
    (∀ d1 d2 : ℤ, d1 ≤ d2 →
        decayOfDays halfLife floorQ d2 ≤ decayOfDays halfLife floorQ d1) ∧
    decayOfDays 90 (3/10) 0 = 1 ∧ decayOfDays 90 (3/10) 90 = 1/2 ∧
      decayOfDays 90 (3/10) 3650 = 3/10 :=
  ⟨fun today lr cr => compute_decay_range _ _ hh hf1 today lr cr,
    fun d1 d2 hd => decayOfDays_anti _ _ hh hf1 d1 d2 hd,
    decayOfDays_ex0, decayOfDays_ex90, decayOfDays_ex3650⟩

theorem C6_compute_decay_bounds_witness :
    (0:ℚ) < 90 ∧ (0:ℚ) < 1 ∧ (1:ℚ) ≤ 1 ∧
      (((1:ℚ) : ℝ) ≤ compute_decay true 90 1 0 none none ∧
        compute_decay true 90 1 0 none none ≤ 1) :=
  ⟨by decide, by decide, by decide,
    (C6_compute_decay_bounds 90 1 (by decide) (by decide) (by decide)).1 0 none none⟩
/- ── BM25 (vault_retrieve.py 215-268) ── -/

/-- A BM25 index document (`build_bm25_index` output / `_build_live_index`
entry): term-frequency map, token count and frontmatter metadata. -/
structure BmDoc where
  note_id : String
  tf : List (String × ℕ)
  len : ℕ
  description : String
  type : String
  confidence : String
deriving DecidableEq

/-- `token in d["tf"]` (dict key membership). -/
def hasTok (d : BmDoc) (t : String) : Bool := (d.tf.find? (fun p => p.1 == t)).isSome

/-- `d["tf"].get(token, 0)`. -/
def tfGet (d : BmDoc) (t : String) : ℕ :=
  ((d.tf.find? (fun p => p.1 == t)).map Prod.snd).getD 0

/-- `df[token] = sum(1 for d in docs if token in d["tf"])`. -/
def dfCount (docs : List BmDoc) (t : String) : ℕ :=
  (docs.filter (fun d => hasTok d t)).length

/-- `avgdl = sum(d["len"] for d in docs) / N if N else 1`. -/
noncomputable def avgdl (docs : List BmDoc) : ℝ :=
  if docs.length = 0 then 1
  else ((docs.map (fun d => (d.len : ℝ))).sum) / (docs.length : ℝ)

/-- One query token's contribution to a document's BM25 score
(`_score_bm25` inner loop, `k1 = 3/2`, `b = 3/4`): skipped when
`df[token] == 0`, otherwise `idf * tf_norm` with
`idf = log((N - df + 0.5)/(df + 0.5) + 1)` and
`tf_norm = tf*(k1+1) / (tf + k1*(1 - b + b*len/avgdl))`. -/
noncomputable def bm25TokenScore (docs : List BmDoc) (d : BmDoc) (t : String) : ℝ :=
  if dfCount docs t = 0 then 0
  else
    Real.log (((docs.length : ℝ) - (dfCount docs t : ℝ) + 1/2) /
        ((dfCount docs t : ℝ) + 1/2) + 1) *
      ((tfGet d t : ℝ) * (3/2 + 1) /
        ((tfGet d t : ℝ) + 3/2 * (1 - 3/4 + 3/4 * (d.len : ℝ) / avgdl docs)))

/-- A document's full BM25 score: the sum over the query-token list (tokens
are iterated with multiplicity, exactly as the `for token in query_tokens`
loop does). -/
noncomputable def bm25Score (docs : List BmDoc) (qt : List String) (d : BmDoc) : ℝ :=
  (qt.map (fun t => bm25TokenScore docs d t)).sum

/-- `_score_bm25` (vault_retrieve.py 215-238): every document paired with
its `bm25_score`. -/
noncomputable def score_bm25 (docs : List BmDoc) (qt : List String) : List (BmDoc × ℝ) :=
  docs.map (fun d => (d, bm25Score docs qt d))

/-- `docs.sort(key=score, reverse=True)` on the scored list.  Python's sort
is stable, so ties keep insertion order; the entries are enumerated with
their insertion positions to make that order observable. -/
noncomputable def bm25Ranked (docs : List BmDoc) (qt : List String) : List (ℕ × (BmDoc × ℝ)) :=
  sortByOrd (fun a b => decide (b.2.2 ≤ a.2.2)) (score_bm25 docs qt).enum

/-- `bm25_search` (vault_retrieve.py 241-268) from the loaded index and the
tokenised query onward: empty-query and empty-index guards, scoring, stable
descending sort, `docs[:top_k]` and the `bm25_score > 0` filter; result
dicts carry no `last_retrieved`/`created` key. -/
noncomputable def bm25_search (docs : List BmDoc) (qt : List String) (top_k : ℕ) :
    List (Entry ℝ) :=
  if qt.isEmpty then [] else
  if docs.isEmpty then [] else
  (((bm25Ranked docs qt).take top_k).filter (fun p => decide (0 < p.2.2))).map
    (fun p => ⟨p.2.1.note_id, p.2.1.description, p.2.1.type, p.2.1.confidence,
      none, none, some p.2.2⟩)

/-- Every query token is absent from every document's term-frequency map. -/
def allOOV (docs : List BmDoc) (qt : List String) : Bool :=
  qt.all (fun t => docs.all (fun d => !(hasTok d t)))

theorem avgdl_nonneg (docs : List BmDoc) : 0 ≤ avgdl docs := by
  unfold avgdl
  split
  · norm_num
  · apply div_nonneg
    · apply List.sum_nonneg
      intro x hx
      rcases List.mem_map.mp hx with ⟨d, _, rfl⟩
      positivity
    · positivity

theorem bm25TokenScore_nonneg (docs : List BmDoc) (d : BmDoc) (t : String) :
    0 ≤ bm25TokenScore docs d t := by
  unfold bm25TokenScore
  split
  · exact le_refl 0
  · apply mul_nonneg
    · apply Real.log_nonneg
      have hdf : dfCount docs t ≤ docs.length := List.length_filter_le _ _
      have h1 : (0:ℝ) ≤ ((docs.length : ℝ) - (dfCount docs t : ℝ) + 1/2) := by
        have : (dfCount docs t : ℝ) ≤ (docs.length : ℝ) := by exact_mod_cast hdf
        linarith
      have h2 : (0:ℝ) ≤ ((dfCount docs t : ℝ) + 1/2) := by positivity
      have := div_nonneg h1 h2
      linarith
    · apply div_nonneg
      · positivity
      · have h3 := avgdl_nonneg docs
        have h4 : (0:ℝ) ≤ (d.len : ℝ) / avgdl docs := div_nonneg (by positivity) h3
        positivity

theorem score_bm25_nonneg (docs : List BmDoc) (qt : List String) :
    List.Forall (fun p : BmDoc × ℝ => 0 ≤ p.2) (score_bm25 docs qt) := by
  rw [List.forall_iff_forall_mem]
  intro p hp
  unfold score_bm25 at hp
  rcases List.mem_map.mp hp with ⟨d, _, rfl⟩
  show 0 ≤ bm25Score docs qt d
  unfold bm25Score
  apply List.sum_nonneg
  intro x hx
  rcases List.mem_map.mp hx with ⟨t, _, rfl⟩
  exact bm25TokenScore_nonneg docs d t

theorem bm25_search_pos (docs : List BmDoc) (qt : List String) (tk : ℕ) :
    List.Forall (fun e : Entry ℝ => 0 < e.score.getD 0) (bm25_search docs qt tk) := by
  rw [List.forall_iff_forall_mem]
  intro e he
  unfold bm25_search at he
  split at he
  · simp at he
  · split at he
    · simp at he
    · rcases List.mem_map.mp he with ⟨p, hp, rfl⟩
      simpa using List.of_mem_filter hp

theorem pairwise_insertOrdBy_rel {α : Type} {le : α → α → Bool} {R : α → α → Prop}
    (htr : ∀ a b c, R a b → R b c → R a c) (x : α) (l : List α)
    (hp : List.Pairwise R l)
    (hd : ∀ y ∈ l, (le y x = true → R y x) ∧ (le y x = false → R x y)) :
    List.Pairwise R (insertOrdBy le x l) := by
  induction l with
  | nil => simp [insertOrdBy]
  | cons y ys ih =>
    rw [List.pairwise_cons] at hp
    unfold insertOrdBy
    split
    · next hyx =>
      rw [List.pairwise_cons]
      refine ⟨?_, ih hp.2 (fun z hz => hd z (List.mem_cons_of_mem y hz))⟩
      intro z hz
      rcases (mem_insertOrdBy le x ys z).mp hz with rfl | hz
      · exact (hd y (List.mem_cons_self y ys)).1 hyx
      · exact hp.1 z hz
    · next hyx =>
      have hxy : R x y := (hd y (List.mem_cons_self y ys)).2 (by simpa using hyx)
      rw [List.pairwise_cons]
      refine ⟨?_, List.pairwise_cons.mpr hp⟩
      intro z hz
      rcases List.mem_cons.mp hz with rfl | hz
      · exact hxy
      · exact htr x y z hxy (hp.1 z hz)

theorem pairwise_sortByOrdAux_rel {α : Type} {le : α → α → Bool} {R : α → α → Prop}
    (htr : ∀ a b c, R a b → R b c → R a c) (l : List α) :
    ∀ acc : List α, List.Pairwise R acc →
    (∀ x ∈ l, ∀ y ∈ acc, (le y x = true → R y x) ∧ (le y x = false → R x y)) →
    List.Pairwise (fun a b => (le a b = true → R a b) ∧ (le a b = false → R b a)) l →
    List.Pairwise R (sortByOrdAux le acc l) := by
  induction l with
  | nil => intro acc hacc _ _; exact hacc
  | cons x xs ih =>
    intro acc hacc hdacc hdl
    rw [sortByOrdAux]
    rw [List.pairwise_cons] at hdl
    refine ih _ (pairwise_insertOrdBy_rel htr x acc hacc
      (fun y hy => hdacc x (List.mem_cons_self x xs) y hy)) ?_ hdl.2
    intro z hz y hy
    rcases (mem_insertOrdBy le x acc y).mp hy with rfl | hy
    · exact hdl.1 z hz
    · exact hdacc z (List.mem_cons_of_mem x hz) y hy

theorem pairwise_sortByOrd_rel {α : Type} {le : α → α → Bool} {R : α → α → Prop}
    (htr : ∀ a b c, R a b → R b c → R a c) (l : List α)
    (hdl : List.Pairwise (fun a b => (le a b = true → R a b) ∧ (le a b = false → R b a)) l) :
    List.Pairwise R (sortByOrd le l) :=
  pairwise_sortByOrdAux_rel htr l [] List.Pairwise.nil (by intro x _ y hy; cases hy) hdl

theorem pairwise_enumFrom_fst {α : Type} :
    ∀ (l : List α) (n : ℕ),
      List.Pairwise (fun a b : ℕ × α => a.1 < b.1) (List.enumFrom n l)
  | [], _ => List.Pairwise.nil
  | x :: xs, n => by
    rw [List.enumFrom_cons, List.pairwise_cons]
    refine ⟨?_, pairwise_enumFrom_fst xs (n + 1)⟩
    intro p hp
    have := List.le_fst_of_mem_enumFrom hp
    omega

theorem mem_enumFrom_snd {α : Type} :
    ∀ {l : List α} {n : ℕ} {p : ℕ × α}, p ∈ List.enumFrom n l → p.2 ∈ l := by
  intro l
  induction l with
  | nil => intro n p hp; cases hp
  | cons x xs ih =>
    intro n p hp
    rw [List.enumFrom_cons] at hp
    rcases List.mem_cons.mp hp with rfl | hp
    · exact List.mem_cons_self x xs
    · exact List.mem_cons_of_mem x (ih hp)

theorem pairwise_bm25Ranked (docs : List BmDoc) (qt : List String) :
    List.Pairwise (fun a b : ℕ × (BmDoc × ℝ) =>
      b.2.2 < a.2.2 ∨ (a.2.2 = b.2.2 ∧ a.1 < b.1)) (bm25Ranked docs qt) := by
  unfold bm25Ranked
  apply pairwise_sortByOrd_rel
  · intro a b c hab hbc
    rcases hab with h1 | ⟨h1, h1i⟩ <;> rcases hbc with h2 | ⟨h2, h2i⟩
    · exact Or.inl (lt_of_lt_of_le h2 (le_of_lt h1))
    · exact Or.inl (h2 ▸ h1)
    · exact Or.inl (h1 ▸ h2)
    · exact Or.inr ⟨h1.trans h2, h1i.trans h2i⟩
  · have henum := pairwise_enumFrom_fst (score_bm25 docs qt) 0
    rw [show List.enum (score_bm25 docs qt) = List.enumFrom 0 (score_bm25 docs qt) from rfl]
    refine henum.imp ?_
    intro a b hidx
    constructor
    · intro hle
      have hle2 : b.2.2 ≤ a.2.2 := of_decide_eq_true hle
      rcases lt_or_eq_of_le hle2 with h | h
      · exact Or.inl h
      · exact Or.inr ⟨h.symm, hidx⟩
    · intro hle
      have : ¬ (b.2.2 ≤ a.2.2) := of_decide_eq_false hle
      exact Or.inl (lt_of_not_le this)

theorem dfCount_eq_zero_of_oov {docs : List BmDoc} {t : String}
    (h : ∀ d ∈ docs, hasTok d t = false) : dfCount docs t = 0 := by
  unfold dfCount
  rw [List.length_eq_zero]
  rw [List.filter_eq_nil_iff]
  intro d hd
  simp [h d hd]

theorem bm25Score_eq_zero_of_oov {docs : List BmDoc} {qt : List String} (d : BmDoc)
    (h : ∀ t ∈ qt, dfCount docs t = 0) : bm25Score docs qt d = 0 := by
  unfold bm25Score
  apply List.sum_eq_zero
  intro x hx
  rcases List.mem_map.mp hx with ⟨t, ht, rfl⟩
  unfold bm25TokenScore
  rw [if_pos (h t ht)]

theorem bm25_search_oov (docs : List BmDoc) (qt : List String) (tk : ℕ)
    (h : allOOV docs qt = true) : bm25_search docs qt tk = [] := by
  have hdf : ∀ t ∈ qt, dfCount docs t = 0 := by
    intro t ht
    apply dfCount_eq_zero_of_oov
    intro d hd
    have h1 := List.all_eq_true.mp h t ht
    have h2 := List.all_eq_true.mp h1 d hd
    simpa using h2
  unfold bm25_search
  split
  · rfl
  · split
    · rfl
    · rw [List.map_eq_nil_iff]
      rw [List.filter_eq_nil_iff]
      intro p hp
      have hp1 : p ∈ bm25Ranked docs qt := List.mem_of_mem_take hp
      have hp2 : p ∈ (score_bm25 docs qt).enum := by
        unfold bm25Ranked at hp1
        exact (perm_sortByOrd _ _).mem_iff.mp hp1
      have hp3 : p.2 ∈ score_bm25 docs qt := mem_enumFrom_snd hp2
      unfold score_bm25 at hp3
      rcases List.mem_map.mp hp3 with ⟨d, _, hdp⟩
      have hz : p.2.2 = 0 := by
        rw [← hdp]
        exact bm25Score_eq_zero_of_oov d hdf
      simp [hz]

/-- C7: every `_score_bm25` score (`k1 = 1.5`, `b = 0.75`,
`idf = ln((N - df + 0.5)/(df + 0.5) + 1)`) is non-negative; every entry
returned by `bm25_search` has positive score (zero-score documents are
excluded); the ranked list is in descending score order with ties broken by
insertion order; and a query whose tokens are all out-of-vocabulary returns
the empty list. -/
theorem C7_bm25_nonneg_ties_oov :
    (∀ (docs : List BmDoc) (qt : List String),
        List.Forall (fun p : BmDoc × ℝ => 0 ≤ p.2) (score_bm25 docs qt)) ∧
    (∀ (docs : List BmDoc) (qt : List String) (tk : ℕ),
        List.Forall (fun e : Entry ℝ => 0 < e.score.getD 0) (bm25_search docs qt tk)) ∧
    (∀ (docs : List BmDoc) (qt : List String),
        List.Pairwise (fun a b : ℕ × (BmDoc × ℝ) =>
          b.2.2 < a.2.2 ∨ (a.2.2 = b.2.2 ∧ a.1 < b.1)) (bm25Ranked docs qt)) ∧
    (∀ (docs : List BmDoc) (qt : List String) (tk : ℕ),
        allOOV docs qt = true → bm25_search docs qt tk = []) :=
  ⟨score_bm25_nonneg, bm25_search_pos, pairwise_bm25Ranked, bm25_search_oov⟩

theorem C7_bm25_nonneg_ties_oov_witness :
    allOOV [⟨"n", [("x", 1)], 1, "d", "concept", "experimental"⟩] ["zz"] = true ∧
    bm25_search [⟨"n", [("x", 1)], 1, "d", "concept", "experimental"⟩] ["zz"] 5 = [] :=
  ⟨by decide, C7_bm25_nonneg_ties_oov.2.2.2 _ _ 5 (by decide)⟩

theorem rrfMetadata_of_any_true {α : Type} (vec kw : List (Entry α)) (nid : String)
    (h : vec.any (fun v => v.note_id == nid) = true) :
    ∃ m, rrfMetadata vec kw nid = some m ∧ m ∈ vec := by
  unfold rrfMetadata
  have hne : vec.filter (fun e => e.note_id == nid) ≠ [] := by
    rw [Ne, List.filter_eq_nil_iff]
    rcases List.any_eq_true.mp h with ⟨v, hv, hvn⟩
    intro hall
    exact hall v hv hvn
  rcases List.getLast?_isSome.mpr hne with hsome
  rcases Option.isSome_iff_exists.mp hsome with ⟨m, hm⟩
  refine ⟨m, ?_, ?_⟩
  · rw [hm]
  · exact List.mem_of_mem_filter (List.mem_of_mem_getLast? hm)

theorem rrfMetadata_of_any_false {α : Type} (vec kw : List (Entry α)) (nid : String)
    (h : vec.any (fun v => v.note_id == nid) = false) :
    rrfMetadata vec kw nid = kw.find? (fun e => e.note_id == nid) := by
  unfold rrfMetadata
  have hnil : vec.filter (fun e => e.note_id == nid) = [] := by
    rw [List.filter_eq_nil_iff]
    intro v hv hvn
    have hany : vec.any (fun v => v.note_id == nid) = true :=
      List.any_eq_true.mpr ⟨v, hv, hvn⟩
    rw [h] at hany
    cases hany
  rw [hnil]
  rfl

theorem rrf_merge_metadata_src {α : Type} (vec kw : List (Entry α)) (k : ℚ) (tk : ℕ) :
    List.Forall (fun e : RrfEntry α =>
      (vec.any (fun v => v.note_id == e.entry.note_id) = true → e.entry ∈ vec) ∧
      (vec.any (fun v => v.note_id == e.entry.note_id) = false →
        e.entry ∈ kw ∨ (e.entry.last_retrieved = none ∧ e.entry.created = none)))
      (rrf_merge vec kw k tk) := by
  rw [List.forall_iff_forall_mem]
  intro e he
  unfold rrf_merge at he
  rcases List.mem_map.mp he with ⟨p, _, rfl⟩
  have hnid : ((rrfMetadata vec kw p.1).getD
      ⟨p.1, "", "?", "experimental", none, none, none⟩).note_id = p.1 :=
    rrfMetadata_note_id vec kw p.1
  constructor
  · intro hany
    rw [hnid] at hany
    rcases rrfMetadata_of_any_true vec kw p.1 hany with ⟨m, hm, hmv⟩
    show ((rrfMetadata vec kw p.1).getD _) ∈ vec
    rw [hm]
    exact hmv
  · intro hany
    rw [hnid] at hany
    have hkw := rrfMetadata_of_any_false vec kw p.1 hany
    show ((rrfMetadata vec kw p.1).getD _) ∈ kw ∨ _
    rw [hkw]
    cases hfind : kw.find? (fun e => e.note_id == p.1) with
    | none => exact Or.inr ⟨rfl, rfl⟩
    | some m => exact Or.inl (by simpa using List.mem_of_find?_eq_some hfind)

theorem bm25_search_no_dates (docs : List BmDoc) (qt : List String) (tk : ℕ) :
    List.Forall (fun e : Entry ℝ => e.last_retrieved = none ∧ e.created = none)
      (bm25_search docs qt tk) := by
  rw [List.forall_iff_forall_mem]
  intro e he
  unfold bm25_search at he
  split at he
  · cases he
  · split at he
    · cases he
    · rcases List.mem_map.mp he with ⟨p, _, rfl⟩
      exact ⟨rfl, rfl⟩

theorem rrf_merge_bm25_only_undecayed (docs : List BmDoc) (qt : List String) (n : ℕ)
    (vec : List (Entry ℝ)) (k : ℚ) (tk : ℕ) :
    List.Forall (fun e : RrfEntry ℝ =>
      vec.any (fun v => v.note_id == e.entry.note_id) = true ∨
        (e.entry.last_retrieved = none ∧ e.entry.created = none))
      (rrf_merge vec (bm25_search docs qt n) k tk) := by
  have hmain := rrf_merge_metadata_src vec (bm25_search docs qt n) k tk
  have hdates := bm25_search_no_dates docs qt n
  rw [List.forall_iff_forall_mem] at hmain hdates ⊢
  intro e he
  cases hany : vec.any (fun v => v.note_id == e.entry.note_id) with
  | true => exact Or.inl rfl
  | false =>
    rcases (hmain e he).2 hany with hkw | hnone
    · exact Or.inr (hdates _ hkw)
    · exact Or.inr hnone

/-- C10: an `rrf_merge` entry whose id occurs in the vector result list
carries a vector entry's metadata dict (including its
`last_retrieved`/`created` fields); an entry whose id is absent from the
vector list carries a keyword entry or the synthetic default, and keyword
(BM25) entries carry no `last_retrieved`/`created`; `compute_decay` on two
absent dates falls back to today, making `days_since = 0` and decay `1` —
so in the pipeline every BM25-only primary note is undecayed. -/
theorem C10_bm25_only_primary_undecayed :
    (∀ (α : Type) (vec kw : List (Entry α)) (k : ℚ) (tk : ℕ),
        List.Forall (fun e : RrfEntry α =>
          (vec.any (fun v => v.note_id == e.entry.note_id) = true → e.entry ∈ vec) ∧
          (vec.any (fun v => v.note_id == e.entry.note_id) = false →
            e.entry ∈ kw ∨ (e.entry.last_retrieved = none ∧ e.entry.created = none)))
          (rrf_merge vec kw k tk)) ∧
    (∀ (docs : List BmDoc) (qt : List String) (tk : ℕ),
        List.Forall (fun e : Entry ℝ => e.last_retrieved = none ∧ e.created = none)
          (bm25_search docs qt tk)) ∧
    (∀ (hl fl : ℚ) (today : ℤ), compute_decay true hl fl today none none = 1) ∧
    (∀ (docs : List BmDoc) (qt : List String) (n : ℕ) (vec : List (Entry ℝ))
        (k : ℚ) (tk : ℕ),
        List.Forall (fun e : RrfEntry ℝ =>
          vec.any (fun v => v.note_id == e.entry.note_id) = true ∨
            (e.entry.last_retrieved = none ∧ e.entry.created = none))
          (rrf_merge vec (bm25_search docs qt n) k tk)) :=
  ⟨fun _ vec kw k tk => rrf_merge_metadata_src vec kw k tk,
    bm25_search_no_dates,
    fun hl fl today => compute_decay_none_none hl fl today,
    rrf_merge_bm25_only_undecayed⟩

/- ── Graph-expansion padding (vault_retrieve.py 407-432, main 628-635) ── -/

/-- Split into the lines `re.MULTILINE` anchors see (separator `\n`). -/
def splitLinesAux : Str → Str → List Str
  | [], cur => [cur.reverse]
  | c :: rest, cur =>
    if c = '\n' then cur.reverse :: splitLinesAux rest []
    else splitLinesAux rest (c :: cur)

/-- All lines of a text. -/
def splitLines (s : Str) : List Str := splitLinesAux s []

/-- First `^key:\s*(.+)$` match, with Python's `.group(1).strip()` applied:
the first line starting with `key ++ ":"` and having at least one character
after the colon; `\s*` plus the outer `.strip()` amount to stripping the
text after the colon. -/
def fmValue (key : Str) (content : Str) : Option Str :=
  match (splitLines content).find?
      (fun line => isPrefixOfL (key ++ [':']) line &&
        decide (key.length + 1 < line.length)) with
  | some line => some (trimL (line.drop (key.length + 1)))
  | none => none

/-- A `pad_unscored` result dict (its `score` is always `None`). -/
structure PadEntry where
  note_id : Str
  description : Str
  type : Str
  score : Option ℚ
deriving DecidableEq

/-- The `for nid in candidate_ids` loop of `pad_unscored`
(vault_retrieve.py 407-432): `if nid in scored_ids or len(result) >= slots:
break` ends the whole loop; a missing file is `continue`; otherwise the
note's first 400 characters are parsed for `description`/`type` and an
unscored entry is appended. -/
def pad_unscoredAux (fs : FS) (scored_ids : List Str) (slots : ℕ) :
    List Str → List PadEntry → List PadEntry
  | [], acc => acc
  | nid :: rest, acc =>
    if scored_ids.contains nid || decide (slots ≤ acc.length) then acc
    else
      match fs (nid ++ mdExt) with
      | none => pad_unscoredAux fs scored_ids slots rest acc
      | some text =>
        pad_unscoredAux fs scored_ids slots rest (acc ++
          [⟨nid, (fmValue (strOf "description") (text.take 400)).getD nid,
            (fmValue (strOf "type") (text.take 400)).getD (strOf "?"), none⟩])

/-- `pad_unscored` (vault_retrieve.py 407-432) over the notes directory
`fs`. -/
def pad_unscored (fs : FS) (scored_ids : List Str) (candidate_ids : List Str)
    (slots : ℕ) : List PadEntry :=
  pad_unscoredAux fs scored_ids slots candidate_ids []

/-- A notes directory holding exactly `b.md`, an unindexed note with
frontmatter `description`/`type` fields. -/
def fsC2 : FS := fun n =>
  if n = strOf "b.md" then some (strOf "---\ndescription: B note\ntype: concept\n---\n")
  else none

/-- C2 (refuted as stated): with scored id `a` and BFS candidate order
`[a, b]`, candidate `b` is unscored, its file `b.md` exists and both slots
are free, yet `pad_unscored` returns `[]` — the `break` on the scored
candidate `a` ends the loop instead of skipping it.  Moving `b` before `a`
in the candidate order pads it with frontmatter metadata and no score, so
the behaviour depends on the candidate's position relative to vector-scored
candidates, contradicting the claim's "regardless of the candidate's
position". -/
theorem C2_pad_unscored_break_skips_candidates :
    ([strOf "a"].contains (strOf "b") = false ∧
      fsC2 (strOf "b" ++ mdExt) ≠ none) ∧
    pad_unscored fsC2 [strOf "a"] [strOf "a", strOf "b"] 2 = [] ∧
    pad_unscored fsC2 [strOf "a"] [strOf "b", strOf "a"] 2 =
      [⟨strOf "b", strOf "B note", strOf "concept", none⟩] := by
  refine ⟨⟨by decide, by decide⟩, by decide, by decide⟩
